import Mathlib

/-!
Verification of the matscan scanner against its specification.

This file shallowly embeds the relevant parts of the source:

* `src/scanner/targets.rs`   — `ScanRange`, `ScanRanges`, `StaticScanRanges`,
  `Ipv4Range`, `Ipv4Ranges` (interval algebra, exclusion, indexed addressing);
* `src/scanner/mod.rs`       — `SourcePort::pick` / `contains`, the first-data
  ACK cookie check of `ScannerReceiver::recv_loop`;
* `src/scanner/protocols/minecraft.rs` — `write_varint` / `read_varint`;
* `src/scanner/throttle.rs`  — `Throttler::next_batch`;
* `src/strategies.rs`        — `StrategyPicker::pick_strategy`;
* `src/processing/minecraft.rs` and `src/database/mod.rs` — the aliased-IP
  counter (`CachedIpHash`, `create_bulk_update`, `add_to_bad_ips`).

IPv4 addresses are modelled as natural numbers below `2^32` (the `u32`
obtained from `Ipv4Addr`), ports as naturals below `2^16`.  Machine
arithmetic is mirrored with explicit `% 2^w` wherever the source's fixed
width can actually wrap.
-/

namespace Matscan

/-- Number of values of a `u32` (the space of IPv4 addresses). -/
def u32Card : Nat := 4294967296

/-- Number of values of a `u16` (the space of TCP ports). -/
def u16Card : Nat := 65536

/-! ## ScanRange (src/scanner/targets.rs) -/

/-- `ScanRange`: a rectangle `[ip_start, ip_end] × [port_start, port_end]`,
all endpoints inclusive (`targets.rs`). -/
structure ScanRange where
  ip_start : Nat
  ip_end : Nat
  port_start : Nat
  port_end : Nat
  deriving DecidableEq, Repr

/-- `ScanRange::count_addresses`: `u32::from(ip_end) as u64 - u32::from(ip_start) as u64 + 1`.
The `u64` arithmetic cannot wrap for 32-bit endpoints, so plain `Nat`
arithmetic is faithful (Rust `-` on `u64` with `ip_start ≤ ip_end`; the
truncated `Nat` subtraction agrees whenever the source does not panic). -/
def ScanRange.count_addresses (r : ScanRange) : Nat :=
  r.ip_end - r.ip_start + 1

/-- `ScanRange::count_ports`: `((port_end - port_start) + 1) as usize`, computed
in `u16`.  The `+ 1` is `u16` addition, which wraps to `0` exactly when the
port range is the full `0..=65535`; the wrap is kept explicitly. -/
def ScanRange.count_ports (r : ScanRange) : Nat :=
  (r.port_end - r.port_start + 1) % u16Card

/-- `ScanRange::count`: `count_addresses * count_ports` (no overflow in `usize`). -/
def ScanRange.count (r : ScanRange) : Nat :=
  r.count_addresses * r.count_ports

/-- `ScanRange::index`: address/port at a flat index, row-major
(addresses outer, ports inner).  The `u32`/`u16` additions are mirrored
with their wrap-arounds; `Nat` division by a zero `port_count` yields `0`
where the source would panic (ruled out by the theorems' hypotheses). -/
def ScanRange.index (r : ScanRange) (i : Nat) : Nat × Nat :=
  ((r.ip_start + i / r.count_ports) % u32Card, (r.port_start + i % r.count_ports) % u16Card)

/-- Well-formedness of a `ScanRange`: the struct invariants from the data
model (ordered endpoints) plus the `u32`/`u16` type bounds of the fields. -/
def ScanRange.WF (r : ScanRange) : Prop :=
  r.ip_start ≤ r.ip_end ∧ r.ip_end < u32Card ∧
  r.port_start ≤ r.port_end ∧ r.port_end < u16Card

instance (r : ScanRange) : Decidable r.WF := by
  unfold ScanRange.WF; infer_instance

/-- Membership of an IP in the IP interval of a `ScanRange`. -/
def ScanRange.coversIp (r : ScanRange) (ip : Nat) : Prop :=
  r.ip_start ≤ ip ∧ ip ≤ r.ip_end

instance (r : ScanRange) (ip : Nat) : Decidable (r.coversIp ip) := by
  unfold ScanRange.coversIp; infer_instance

/-- Membership of an (ip, port) pair in the rectangle of a `ScanRange`. -/
def ScanRange.coversPair (r : ScanRange) (ip port : Nat) : Prop :=
  r.ip_start ≤ ip ∧ ip ≤ r.ip_end ∧ r.port_start ≤ port ∧ port ≤ r.port_end

instance (r : ScanRange) (ip port : Nat) : Decidable (r.coversPair ip port) := by
  unfold ScanRange.coversPair; infer_instance

/-! ## Ipv4Range / Ipv4Ranges (src/scanner/targets.rs) -/

/-- `Ipv4Range`: an inclusive IPv4 interval.  The source field `end` is a
Lean keyword and is rendered `stop`. -/
structure Ipv4Range where
  start : Nat
  stop : Nat
  deriving DecidableEq, Repr

/-- Membership of an IP in an `Ipv4Range`. -/
def Ipv4Range.covers (e : Ipv4Range) (ip : Nat) : Prop :=
  e.start ≤ ip ∧ ip ≤ e.stop

instance (e : Ipv4Range) (ip : Nat) : Decidable (e.covers ip) := by
  unfold Ipv4Range.covers; infer_instance

/-- `Ipv4Ranges`: a sequence of ranges kept sorted by `start`. -/
structure Ipv4Ranges where
  ranges : List Ipv4Range
  deriving DecidableEq, Repr

/-- `Ipv4Ranges::new`: sorts the given ranges by `start` (`sort_by_key`,
a stable sort, modelled by `List.mergeSort`). -/
def Ipv4Ranges.new (rs : List Ipv4Range) : Ipv4Ranges :=
  ⟨rs.mergeSort (fun a b => a.start ≤ b.start)⟩

/-- Binary-search loop of `Ipv4Ranges::contains`.  `none`-style fallthrough
is impossible for in-bounds windows; the Rust `Vec` indexing panic is
modelled by returning `false` (the loop never reaches it when
`stop ≤ ranges.length`). -/
def Ipv4Ranges.containsLoop (ranges : List Ipv4Range) (addr : Nat)
    (start stop : Nat) : Bool :=
  if _h : start < stop then
    match ranges[(start + stop) / 2]? with
    | none => false
    | some range =>
      if range.stop < addr then Ipv4Ranges.containsLoop ranges addr ((start + stop) / 2 + 1) stop
      else if range.start > addr then Ipv4Ranges.containsLoop ranges addr start ((start + stop) / 2)
      else true
  else false
termination_by stop - start
decreasing_by
  all_goals omega

/-- `Ipv4Ranges::contains`: binary search over the sorted ranges. -/
def Ipv4Ranges.contains (rs : Ipv4Ranges) (addr : Nat) : Bool :=
  Ipv4Ranges.containsLoop rs.ranges addr 0 rs.ranges.length

/-! ## SourcePort (src/scanner/mod.rs) -/

/-- `SourcePort`: a fixed source port or an inclusive range. -/
inductive SourcePort where
  | Number (port : Nat)
  | Range (min max : Nat)
  deriving DecidableEq, Repr

/-- `SourcePort::pick`.  For `Range { min, max }` the source computes
`let range = max - min; (seed % range as u32) as u16 + min`.  When
`min = max` the modulus is zero and `seed % 0` panics (`none` here);
otherwise the `u16` truncation and addition are mirrored exactly.
`max - min` is `u16` subtraction, a panic when `min > max` (also `none`). -/
def SourcePort.pick (sp : SourcePort) (seed : Nat) : Option Nat :=
  match sp with
  | .Number port => some port
  | .Range min max =>
    if min > max then none
    else
      let range := max - min
      if range = 0 then none
      else some ((seed % range) % u16Card % u16Card + min)

/-- `SourcePort::contains`. -/
def SourcePort.contains (sp : SourcePort) (port : Nat) : Bool :=
  match sp with
  | .Number p => p == port
  | .Range min max => min ≤ port && port ≤ max

/-- The formula the specification claims for `pick` on a range:
`seed mod (max − min + 1) + min`. -/
def specRangePick (min max seed : Nat) : Nat :=
  seed % (max - min + 1) + min

/-! ## First-data ACK cookie check (src/scanner/mod.rs, recv_loop) -/

/-- Expected acknowledgement for the first data segment of an untracked
peer: `cookie.wrapping_add(packet_size + 1)` where `packet_size` is the
length of the protocol payload (`recv_loop`, ACK-with-payload branch).
The SYN cookie itself is `hash(addr, port, seed)` truncated to `u32`
(an external hasher); it enters the model as an arbitrary `u32` value. -/
def expectedFirstDataAck (original_cookie payload_len : Nat) : Nat :=
  (original_cookie + (payload_len + 1)) % u32Card

/-- The receiver's gate for an ACK segment carrying data from a peer with
no `ConnState`: the segment is processed (parsed and possibly enqueued,
a `ConnState` being created on success) exactly when the acknowledgement
equals the expected value; otherwise the packet is dropped (`continue`). -/
def firstDataAccepted (original_cookie payload_len actual_ack : Nat) : Bool :=
  actual_ack == expectedFirstDataAck original_cookie payload_len

/-! ## Throttler (src/scanner/throttle.rs) -/

/-- One activation of `Throttler::next_batch`, with the time-dependent test
`current_rate > max_rate` supplied as an oracle list of booleans (one entry
per loop entry; the recursion `return self.next_batch()` consumes the next
entry).  The `f64` batch size is modelled as an exact rational; `as u64`
is truncation toward zero.  `none` means the oracle was exhausted (the
source would keep sleeping and recursing). -/
def nextBatch : List Bool → ℚ → Option (ℚ × Nat)
  | [], _ => none
  | over :: rest, batch_size =>
    if over then
      nextBatch rest (batch_size * (999 / 1000))
    else
      let grown := batch_size * (1005 / 1000)
      let clamped := if grown > 10000 then 10000 else grown
      some (clamped, ⌊clamped⌋.toNat)

/-- Initial batch size of `Throttler::new`. -/
def initialBatchSize : ℚ := 1

/-! ## Varint codec (src/scanner/protocols/minecraft.rs) -/

def write_varintLoop (value : Nat) : List Nat :=
  if h : value = 0 then []
  else
    (if value / 128 ≠ 0 then value % 128 + 128 else value % 128) ::
      write_varintLoop (value / 128)
termination_by value
decreasing_by
  exact Nat.div_lt_self (Nat.pos_of_ne_zero h) (by norm_num)

def write_varint (value : Nat) : List Nat :=
  (if value = 0 then [0] else []) ++ write_varintLoop value

def read_varintLoop (bytes : List Nat) (i ans : Nat) : Option Nat :=
  if i < 5 then
    match bytes with
    | [] => none
    | b :: rest =>
      if b % 256 / 128 = 0 then some (ans ||| ((b % 256 % 128) <<< (7 * i) % u32Card))
      else read_varintLoop rest (i + 1) (ans ||| ((b % 256 % 128) <<< (7 * i) % u32Card))
  else some ans
termination_by 5 - i
decreasing_by
  omega

def read_varint (bytes : List Nat) : Option Nat :=
  read_varintLoop bytes 0 0

theorem write_varintLoop_zero : write_varintLoop 0 = [] := by
  rw [write_varintLoop]
  simp

theorem or_mod_div_128 (v : Nat) : (v % 128) ||| ((v / 128) <<< 7) = v := by
  apply Nat.eq_of_testBit_eq
  intro j
  have h128 : (128 : Nat) = 2 ^ 7 := by norm_num
  rw [h128, Nat.testBit_or, Nat.testBit_shiftLeft, ← Nat.shiftRight_eq_div_pow,
    Nat.testBit_shiftRight, Nat.testBit_mod_two_pow]
  by_cases hj : j < 7
  · have h7 : ¬ (7 ≤ j) := by omega
    simp [hj, h7]
  · have h7 : 7 ≤ j := by omega
    have hrw : 7 + (j - 7) = j := by omega
    simp [hj, h7, hrw]

theorem shiftLeft_or_distrib (x y n : Nat) : (x ||| y) <<< n = (x <<< n) ||| (y <<< n) := by
  apply Nat.eq_of_testBit_eq
  intro j
  rw [Nat.testBit_or, Nat.testBit_shiftLeft, Nat.testBit_shiftLeft, Nat.testBit_shiftLeft,
    Nat.testBit_or]
  by_cases hn : n ≤ j <;> simp [hn]

theorem shiftLeft_shiftLeft (x a b : Nat) : (x <<< a) <<< b = x <<< (a + b) := by
  rw [Nat.shiftLeft_eq, Nat.shiftLeft_eq, Nat.shiftLeft_eq, Nat.pow_add]
  ring

theorem read_write_varintLoop (v : Nat) : ∀ i ans : Nat, v ≠ 0 → v < 2 ^ (32 - 7 * i) →
    i < 5 → ans < 2 ^ (7 * i) →
    read_varintLoop (write_varintLoop v) i ans = some (ans ||| (v <<< (7 * i))) := by
  induction v using Nat.strong_induction_on with
  | _ v ih =>
    intro i ans hv hb hi hans
    rw [write_varintLoop, dif_neg hv]
    have hshift : v <<< (7 * i) < 2 ^ 32 := by
      rw [Nat.shiftLeft_eq]
      calc v * 2 ^ (7 * i) < 2 ^ (32 - 7 * i) * 2 ^ (7 * i) :=
            mul_lt_mul_of_pos_right hb (pow_pos (by norm_num) _)
        _ = 2 ^ 32 := by rw [← Nat.pow_add]; congr 1; omega
    by_cases hd : v / 128 = 0
    · -- last group: the continuation bit is clear
      have hvlt : v < 128 := by
        by_contra hc
        rw [Nat.div_eq_zero_iff (by norm_num)] at hd
        omega
      rw [if_neg (by simp [hd]), hd, write_varintLoop_zero, read_varintLoop, if_pos hi]
      have hb256 : v % 128 % 256 = v := by
        rw [Nat.mod_eq_of_lt hvlt, Nat.mod_eq_of_lt (by omega)]
      rw [hb256, Nat.mod_eq_of_lt hvlt, if_pos (Nat.div_eq_of_lt hvlt)]
      rw [Nat.mod_eq_of_lt (show v <<< (7 * i) < u32Card from hshift)]
    · -- continuation bit set, recurse on the shifted-out rest
      have hvge : 128 ≤ v := by
        by_contra hc
        exact hd (Nat.div_eq_of_lt (by omega))
      have hile : i ≤ 3 := by
        by_contra hc
        have hi4 : i = 4 := by omega
        rw [hi4] at hb
        norm_num at hb
        omega
      rw [if_pos hd, read_varintLoop, if_pos hi]
      have hb256 : (v % 128 + 128) % 256 = v % 128 + 128 :=
        Nat.mod_eq_of_lt (by have := Nat.mod_lt v (show 0 < 128 by norm_num); omega)
      rw [hb256]
      have hb128 : (v % 128 + 128) % 128 = v % 128 := by omega
      rw [hb128]
      have hcont : (v % 128 + 128) / 128 = 1 := by omega
      rw [if_neg (by omega)]
      have hmod128lt : ∀ j : Nat, (v % 128) <<< (7 * j) < 2 ^ (7 * (j + 1)) := by
        intro j
        rw [Nat.shiftLeft_eq]
        calc (v % 128) * 2 ^ (7 * j) < 128 * 2 ^ (7 * j) :=
              mul_lt_mul_of_pos_right (Nat.mod_lt _ (by norm_num)) (pow_pos (by norm_num) _)
          _ = 2 ^ (7 * (j + 1)) := by
              rw [show 7 * (j + 1) = 7 + 7 * j by ring, Nat.pow_add]
      have hmodno : (v % 128) <<< (7 * i) % u32Card = (v % 128) <<< (7 * i) := by
        apply Nat.mod_eq_of_lt
        show (v % 128) <<< (7 * i) < 2 ^ 32
        calc (v % 128) <<< (7 * i) < 2 ^ (7 * (i + 1)) := hmod128lt i
          _ ≤ 2 ^ 32 := Nat.pow_le_pow_right (by norm_num) (by omega)
      rw [hmodno]
      have hdivlt : v / 128 < 2 ^ (32 - 7 * (i + 1)) := by
        have hexp : 2 ^ (32 - 7 * i) = 128 * 2 ^ (32 - 7 * (i + 1)) := by
          rw [show (32 - 7 * i) = 7 + (32 - 7 * (i + 1)) by omega, Nat.pow_add]
        rw [hexp] at hb
        exact Nat.div_lt_of_lt_mul hb
      have hrec := ih (v / 128) (Nat.div_lt_self (by omega) (by norm_num)) (i + 1)
        (ans ||| (v % 128) <<< (7 * i)) hd hdivlt (by omega)
        (Nat.or_lt_two_pow
          (lt_of_lt_of_le hans (Nat.pow_le_pow_right (by norm_num) (by omega)))
          (hmod128lt i))
      rw [hrec]
      congr 1
      rw [Nat.or_assoc]
      congr 1
      rw [show 7 * (i + 1) = 7 + 7 * i from by ring]
      conv_rhs => rw [← or_mod_div_128 v]
      rw [shiftLeft_or_distrib, shiftLeft_shiftLeft]

theorem write_varintLoop_length : ∀ k v : Nat, v < 2 ^ (7 * k) →
    (write_varintLoop v).length ≤ k := by
  intro k
  induction k with
  | zero =>
    intro v hv
    norm_num at hv
    rw [hv, write_varintLoop_zero]
    simp
  | succ k ihk =>
    intro v hv
    by_cases hv0 : v = 0
    · rw [hv0, write_varintLoop_zero]
      simp
    · rw [write_varintLoop, dif_neg hv0]
      simp only [List.length_cons, Nat.add_le_add_iff_right]
      apply ihk
      have hexp : 2 ^ (7 * (k + 1)) = 128 * 2 ^ (7 * k) := by
        rw [show 7 * (k + 1) = 7 + 7 * k by ring, Nat.pow_add]
      rw [hexp] at hv
      exact Nat.div_lt_of_lt_mul hv

/-- C6 (confirmed): for every `i32` value (represented by its 32-bit two's
complement pattern `v < 2³²`), writing it with `write_varint` and reading
the produced bytes with `read_varint` yields the value back, and the
base-128 little-endian MSB-continuation encoding uses at most 5 bytes. -/
theorem varint_roundtrip (v : Nat) (hv : v < u32Card) :
    read_varint (write_varint v) = some v ∧ (write_varint v).length ≤ 5 := by
  by_cases h0 : v = 0
  · subst h0
    rw [write_varint, if_pos rfl, write_varintLoop_zero]
    constructor
    · rw [read_varint, read_varintLoop.eq_def]
      norm_num
    · simp
  · have hlt32 : v < 2 ^ (32 - 7 * 0) := by
      have : u32Card = 2 ^ 32 := by norm_num [u32Card]
      omega
    have hrt := read_write_varintLoop v 0 0 h0 hlt32 (by norm_num) (by norm_num)
    rw [write_varint, if_neg h0, List.nil_append]
    refine ⟨?_, ?_⟩
    · rw [read_varint, hrt]
      simp
    · exact write_varintLoop_length 5 v (by
        have : u32Card = 2 ^ 32 := by norm_num [u32Card]
        have h35 : (2 : Nat) ^ 32 ≤ 2 ^ (7 * 5) := Nat.pow_le_pow_right (by norm_num) (by norm_num)
        omega)

/-- C6 (witness): the varint roundtrip at the concrete value 300. -/
theorem varint_roundtrip_witness :
    read_varint (write_varint 300) = some 300 ∧ (write_varint 300).length ≤ 5 :=
  varint_roundtrip 300 (by norm_num [u32Card])


/-! ## Theorems for claims C3, C4, C5, C9 -/

/-- C3 (code bug, evaluation): `SourcePort::Range{min,max}.pick` divides the
seed by `max - min`, not `max - min + 1`.  At the failing input
`Range{min:100, max:100}` the modulus is zero and the source panics
(modelled `none`); for `Range{min:0, max:1}` with seed 1 the code returns
port 0 whereas the specified formula `seed mod (max−min+1) + min` yields 1
(so `max` is never picked).  `Number` ports behave as claimed. -/
theorem sourcePort_pick_code_bug_eval :
    Matscan.SourcePort.pick (.Range 100 100) 5 = none ∧
    Matscan.SourcePort.pick (.Range 0 1) 1 = some 0 ∧
    Matscan.specRangePick 0 1 1 = 1 ∧
    Matscan.SourcePort.pick (.Number 61000) 7 = some 61000 ∧
    Matscan.SourcePort.contains (.Range 0 1) 0 = true := by
  refine ⟨rfl, rfl, rfl, rfl, rfl⟩

/-- C4 (counterexample): the claim bounds `count()` by `2³²`, but the range
`0.0.0.0–255.255.255.255 × {0, 1}` is well-formed and has count `2³³`. -/
theorem scanRange_count_counterexample :
    (ScanRange.mk 0 (u32Card - 1) 0 1).WF ∧
    ScanRange.count ⟨0, u32Card - 1, 0, 1⟩ = 2 * u32Card ∧
    u32Card < 2 * u32Card := by
  refine ⟨by decide, by decide, by decide⟩

/-- C4 (amended): for a well-formed `ScanRange` whose port interval is not
the full `0..=65535` (whose `u16` port count would wrap to zero), `count()`
returns exactly `(ip_end − ip_start + 1) · (port_end − port_start + 1)`,
a value at most `2⁴⁸`; the range `0.0.0.0–255.255.255.255` on the single
port 25565 has count `2³²`. -/
theorem scanRange_count_exact (r : ScanRange) (hwf : r.WF)
    (hspan : r.port_end - r.port_start < u16Card - 1) :
    r.count = (r.ip_end - r.ip_start + 1) * (r.port_end - r.port_start + 1) ∧
    r.count ≤ 2 ^ 48 ∧
    ScanRange.count ⟨0, u32Card - 1, 25565, 25565⟩ = u32Card := by
  obtain ⟨h1, h2, h3, h4⟩ := hwf
  have hports : r.count_ports = r.port_end - r.port_start + 1 := by
    unfold ScanRange.count_ports
    exact Nat.mod_eq_of_lt (by unfold u16Card at hspan ⊢; omega)
  refine ⟨?_, ?_, by decide⟩
  · unfold ScanRange.count ScanRange.count_addresses
    rw [hports]
  · unfold ScanRange.count ScanRange.count_addresses
    rw [hports]
    have ha : r.ip_end - r.ip_start + 1 ≤ 2 ^ 32 := by
      unfold u32Card at h2; omega
    have hb : r.port_end - r.port_start + 1 ≤ 2 ^ 16 := by
      unfold u16Card at h4; omega
    calc (r.ip_end - r.ip_start + 1) * (r.port_end - r.port_start + 1)
        ≤ 2 ^ 32 * 2 ^ 16 := Nat.mul_le_mul ha hb
      _ = 2 ^ 48 := by norm_num

/-- C4 (witness): the amended count theorem instantiated at the /0 range on
port 25565. -/
theorem scanRange_count_exact_witness :
    ScanRange.count ⟨0, u32Card - 1, 25565, 25565⟩ =
      (u32Card - 1 - 0 + 1) * (25565 - 25565 + 1) ∧
    ScanRange.count ⟨0, u32Card - 1, 25565, 25565⟩ ≤ 2 ^ 48 ∧
    ScanRange.count ⟨0, u32Card - 1, 25565, 25565⟩ = u32Card :=
  scanRange_count_exact ⟨0, u32Card - 1, 25565, 25565⟩ (by decide) (by decide)

/-- C5 (confirmed): the receiver's first-data gate accepts exactly the
acknowledgement `cookie + payload_len + 1` (wrapping `u32` addition) and
drops any other acknowledgement, in particular the off-by-one value.  The
SYN cookie enters as an arbitrary `u32`; acceptance leads to the
parse/enqueue path (and `ConnState` creation), rejection to `continue`. -/
theorem first_data_cookie_gate (c len ack : Nat)
    (h : ack ≠ expectedFirstDataAck c len) :
    firstDataAccepted c len (expectedFirstDataAck c len) = true ∧
    firstDataAccepted c len ack = false ∧
    firstDataAccepted c len ((expectedFirstDataAck c len + 1) % u32Card) = false := by
  have hlt : expectedFirstDataAck c len < u32Card :=
    Nat.mod_lt _ (by unfold u32Card; omega)
  refine ⟨by simp [firstDataAccepted], by simp [firstDataAccepted]; exact fun hh => absurd hh h, ?_⟩
  simp only [firstDataAccepted, beq_eq_false_iff_ne, ne_eq]
  intro hh
  unfold u32Card at hlt hh
  omega

/-- C5 (witness): the gate at cookie 7, payload length 3, and the rejected
acknowledgement 0. -/
theorem first_data_cookie_gate_witness :
    firstDataAccepted 7 3 (expectedFirstDataAck 7 3) = true ∧
    firstDataAccepted 7 3 0 = false ∧
    firstDataAccepted 7 3 ((expectedFirstDataAck 7 3 + 1) % u32Card) = false :=
  first_data_cookie_gate 7 3 0 (by decide)

/-- C9 (confirmed): whenever `next_batch` returns, the returned integer
batch size is at most 10 000 and the stored (rational-modelled `f64`) batch
size is at most 10 000, for any starting size and any oracle of
rate-overshoot outcomes — growth multiplies by 1.005 and clamps at 10 000,
overshoot multiplies by 0.999 and recurses. -/
theorem throttler_next_batch_cap (overs : List Bool) (bs bs' : ℚ) (n : Nat)
    (h : nextBatch overs bs = some (bs', n)) : n ≤ 10000 ∧ bs' ≤ 10000 := by
  induction overs generalizing bs with
  | nil => simp [nextBatch] at h
  | cons over rest ih =>
    by_cases hover : over
    · rw [hover] at h
      simp only [nextBatch, if_true] at h
      exact ih _ h
    · have hover' : over = false := by simpa using hover
      rw [hover'] at h
      simp only [nextBatch, Bool.false_eq_true, if_false] at h
      obtain ⟨hbs', hn⟩ := Prod.mk.injEq _ _ _ _ ▸ Option.some.injEq _ _ ▸ h
      set grown := bs * (1005 / 1000) with hg
      have hcl : (if grown > 10000 then (10000 : ℚ) else grown) ≤ 10000 := by
        split
        · exact le_refl 10000
        · next hng => exact le_of_not_lt hng
      have hfl : ⌊(if grown > 10000 then (10000 : ℚ) else grown)⌋ ≤ (10000 : ℤ) := by
        calc ⌊(if grown > 10000 then (10000 : ℚ) else grown)⌋
            ≤ ⌊(10000 : ℚ)⌋ := Int.floor_le_floor hcl
          _ = 10000 := by norm_num
      exact ⟨by omega, hbs' ▸ hcl⟩

/-- C9 (witness): one non-overshooting call starting from the initial batch
size 1 returns batch 1 and stores 1.005. -/
theorem throttler_next_batch_cap_witness : (1 : Nat) ≤ 10000 ∧ (201 / 200 : ℚ) ≤ 10000 :=
  throttler_next_batch_cap [false] initialBatchSize (201 / 200) 1 (by
    simp only [nextBatch, initialBatchSize, Bool.false_eq_true, if_false]
    rw [if_neg (by norm_num)]
    norm_num)


/-! ## Ipv4Ranges.contains: binary-search correctness (claim C10) -/

theorem containsLoop_cons_eq (l : List Ipv4Range) (a s e : Nat) (hse : s < e)
    (r : Ipv4Range) (hr : l[(s + e) / 2]? = some r) :
    Ipv4Ranges.containsLoop l a s e =
      (if r.stop < a then Ipv4Ranges.containsLoop l a ((s + e) / 2 + 1) e
       else if r.start > a then Ipv4Ranges.containsLoop l a s ((s + e) / 2)
       else true) := by
  rw [Ipv4Ranges.containsLoop, dif_pos hse, hr]

theorem containsLoop_sound (l : List Ipv4Range) (a : Nat) :
    ∀ s e, Ipv4Ranges.containsLoop l a s e = true → ∃ r ∈ l, r.covers a := by
  intro s e
  induction s, e using Ipv4Ranges.containsLoop.induct l a with
  | case1 s e hse hr =>
    rw [Ipv4Ranges.containsLoop, dif_pos hse, hr]
    simp
  | case2 s e hse r hr hstop ih =>
    rw [containsLoop_cons_eq l a s e hse r hr, if_pos hstop]
    exact ih
  | case3 s e hse r hr hstop hstart ih =>
    rw [containsLoop_cons_eq l a s e hse r hr, if_neg hstop, if_pos hstart]
    exact ih
  | case4 s e hse r hr hstop hstart =>
    intro _
    refine ⟨r, List.getElem?_mem hr, ⟨by omega, by omega⟩⟩
  | case5 s e hse =>
    rw [Ipv4Ranges.containsLoop, dif_neg hse]
    simp

theorem containsLoop_complete_aux (l : List Ipv4Range) (a : Nat)
    (hwf : ∀ r ∈ l, r.start ≤ r.stop)
    (hsep : l.Pairwise (fun x y => x.stop < y.start)) :
    ∀ n s e, e - s ≤ n → e ≤ l.length →
    (∀ i (hi : i < l.length), i < s → (l[i]).stop < a) →
    (∀ i (hi : i < l.length), e ≤ i → a < (l[i]).start) →
    ∀ j (hj : j < l.length), (l[j]).covers a →
    Ipv4Ranges.containsLoop l a s e = true := by
  have hpg : ∀ i j (hi : i < l.length) (hj : j < l.length), i < j →
      (l[i]).stop < (l[j]).start := by
    intro i j hi hj hij
    have := List.pairwise_iff_get.mp hsep ⟨i, hi⟩ ⟨j, hj⟩ hij
    simpa using this
  intro n
  induction n with
  | zero =>
    intro s e hme he h1 h2 j hj hcov
    obtain ⟨hja, haj⟩ := hcov
    have hjs : s ≤ j := by
      by_contra hc
      exact absurd haj (by have := h1 j hj (by omega); omega)
    have hje : j < e := by
      by_contra hc
      exact absurd hja (by have := h2 j hj (by omega); omega)
    omega
  | succ n ihn =>
    intro s e hme he h1 h2 j hj hcov
    obtain ⟨hja, haj⟩ := hcov
    -- the covering index j lies inside the window
    have hjs : s ≤ j := by
      by_contra hc
      exact absurd haj (by have := h1 j hj (by omega); omega)
    have hje : j < e := by
      by_contra hc
      exact absurd hja (by have := h2 j hj (by omega); omega)
    have hse : s < e := by omega
    have hmidlt : (s + e) / 2 < l.length := by omega
    have hget : l[(s + e) / 2]? = some (l[(s + e) / 2]) := List.getElem?_eq_getElem hmidlt
    rw [containsLoop_cons_eq l a s e hse _ hget]
    by_cases hc1 : (l[(s + e) / 2]).stop < a
    · rw [if_pos hc1]
      -- j must be to the right of mid
      have hjmid : (s + e) / 2 < j := by
        rcases Nat.lt_trichotomy j ((s + e) / 2) with h | h | h
        · have := hpg j ((s + e) / 2) hj hmidlt h
          have hw := hwf (l[(s + e) / 2]) (List.getElem_mem hmidlt)
          omega
        · subst h
          omega
        · exact h
      refine ihn ((s + e) / 2 + 1) e (by omega) he ?_ h2 j hj ⟨hja, haj⟩
      intro i hi hilt
      rcases Nat.lt_trichotomy i ((s + e) / 2) with h | h | h
      · have := hpg i ((s + e) / 2) hi hmidlt h
        have hw := hwf (l[(s + e) / 2]) (List.getElem_mem hmidlt)
        omega
      · subst h
        exact hc1
      · omega
    · rw [if_neg hc1]
      by_cases hc2 : (l[(s + e) / 2]).start > a
      · rw [if_pos hc2]
        have hjmid : j < (s + e) / 2 := by
          rcases Nat.lt_trichotomy j ((s + e) / 2) with h | h | h
          · exact h
          · subst h
            omega
          · have := hpg ((s + e) / 2) j hmidlt hj h
            have hw := hwf (l[(s + e) / 2]) (List.getElem_mem hmidlt)
            omega
        refine ihn s ((s + e) / 2) (by omega) (by omega) h1 ?_ j hj ⟨hja, haj⟩
        intro i hi hile
        rcases Nat.lt_trichotomy i ((s + e) / 2) with h | h | h
        · omega
        · subst h
          omega
        · have := hpg ((s + e) / 2) i hmidlt hi h
          have hw := hwf (l[(s + e) / 2]) (List.getElem_mem hmidlt)
          omega
      · rw [if_neg hc2]

theorem containsLoop_stopped (l : List Ipv4Range) (a s e : Nat) (hse : ¬ s < e) :
    Ipv4Ranges.containsLoop l a s e = false := by
  rw [Ipv4Ranges.containsLoop, dif_neg hse]

/-- C10 (amended): for vectors of well-formed (`start ≤ end`), pairwise
IP-disjoint ranges, `Ipv4Ranges::new(v).contains(a)` returns true iff some
range of `v` contains `a`; on the empty vector it always returns false. -/
theorem ipv4_new_contains_iff (v : List Ipv4Range) (a : Nat)
    (hwf : ∀ r ∈ v, r.start ≤ r.stop)
    (hdisj : v.Pairwise (fun x y => ∀ ip, ¬(x.covers ip ∧ y.covers ip))) :
    ((Ipv4Ranges.new v).contains a = true ↔ ∃ r ∈ v, r.covers a) ∧
    (Ipv4Ranges.new []).contains a = false := by
  refine ⟨?_, ?_⟩
  · have hperm := List.mergeSort_perm v (fun x y => x.start ≤ y.start)
    have hsortle := @List.sorted_mergeSort Ipv4Range
      (fun x y : Ipv4Range => x.start ≤ y.start)
      (by intro x y z hxy hyz; simp only [decide_eq_true_eq] at *; omega)
      (by intro x y; simp only [Bool.or_eq_true, decide_eq_true_eq]; omega)
      v
    have hdisj' : (v.mergeSort (fun x y => x.start ≤ y.start)).Pairwise
        (fun x y => ∀ ip, ¬(x.covers ip ∧ y.covers ip)) := by
      refine (hperm.pairwise_iff ?_).mpr hdisj
      intro x y hxy ip hip
      exact hxy ip ⟨hip.2, hip.1⟩
    have hsep : (v.mergeSort (fun x y => x.start ≤ y.start)).Pairwise
        (fun x y => x.stop < y.start) := by
      refine List.Pairwise.imp_of_mem ?_ (hsortle.and hdisj')
      intro x y hx hy hr
      obtain ⟨hle, hd⟩ := hr
      simp only [decide_eq_true_eq] at hle
      by_contra hns
      push_neg at hns
      have hwfy : y.start ≤ y.stop := hwf y (hperm.mem_iff.mp hy)
      exact hd y.start ⟨⟨hle, hns⟩, ⟨le_refl _, hwfy⟩⟩
    constructor
    · intro h
      obtain ⟨r, hrl, hcov⟩ := containsLoop_sound _ a _ _ h
      exact ⟨r, hperm.mem_iff.mp hrl, hcov⟩
    · intro h
      obtain ⟨r, hrv, hcov⟩ := h
      have hrl : r ∈ v.mergeSort (fun x y => x.start ≤ y.start) :=
        hperm.mem_iff.mpr hrv
      obtain ⟨j, hj, hjr⟩ := List.mem_iff_getElem.mp hrl
      show Ipv4Ranges.containsLoop (v.mergeSort (fun x y => x.start ≤ y.start)) a 0
        ((v.mergeSort (fun x y => x.start ≤ y.start)).length) = true
      refine containsLoop_complete_aux _ a ?_ hsep _ 0 _ (le_refl _) (le_refl _)
        (by omega) (by intro i hi hle; omega) j hj (by rw [hjr]; exact hcov)
      intro r hr
      exact hwf r (hperm.mem_iff.mp hr)
  · show Ipv4Ranges.containsLoop _ _ _ _ = false
    exact containsLoop_stopped _ _ _ _ (by
      show ¬ (0 < (Ipv4Ranges.new []).ranges.length)
      simp [Ipv4Ranges.new])


/-- C10 (witness): the amended contains theorem at the singleton range
`[10,20]` and address 15. -/
theorem ipv4_new_contains_iff_witness :
    ((Ipv4Ranges.new [⟨10, 20⟩]).contains 15 = true ↔
      ∃ r ∈ [Ipv4Range.mk 10 20], r.covers 15) ∧
    (Ipv4Ranges.new []).contains 15 = false :=
  ipv4_new_contains_iff [⟨10, 20⟩] 15 (by decide) (by simp)

/-- C10 (counterexample): with overlapping ranges the claim fails — for
`v = [[0,100], [50,60]]` (already sorted by start) the binary search
descends into `[50,60]`, sees `60 < 80`, discards the left half and
reports `contains 80 = false`, even though `[0,100]` contains 80. -/
theorem ipv4_contains_counterexample :
    (Ipv4Ranges.new [⟨0, 100⟩, ⟨50, 60⟩]).contains 80 = false ∧
    ∃ r ∈ [Ipv4Range.mk 0 100, ⟨50, 60⟩], r.covers 80 := by
  constructor
  · have hsorted : Ipv4Ranges.new [⟨0, 100⟩, ⟨50, 60⟩] = ⟨[⟨0, 100⟩, ⟨50, 60⟩]⟩ := by
      unfold Ipv4Ranges.new
      congr 1
      exact List.mergeSort_of_sorted (by decide)
    rw [hsorted, Ipv4Ranges.contains]
    show Ipv4Ranges.containsLoop [⟨0, 100⟩, ⟨50, 60⟩] 80 0 2 = false
    rw [containsLoop_cons_eq _ _ _ _ (by norm_num) ⟨50, 60⟩ (by decide)]
    rw [if_pos (by norm_num)]
    exact containsLoop_stopped _ _ _ _ (by omega)
  · exact ⟨⟨0, 100⟩, by decide, by decide⟩




/-! ## Strategy picker (src/strategies.rs, claim C8) -/

/-- `ScanStrategy` (src/strategies.rs): the strategy enum. -/
inductive ScanStrategy where
  | Slash0
  | Slash16a
  | Slash16b
  | Slash24a
  | Slash24b
  | Slash24c
  | Slash32
  | Rescan1day
  | Rescan7days
  | Rescan30days
  | Rescan365days
  | RescanOlderThan365days
  deriving DecidableEq, Repr

/-- The "unseen" sentinel score of the strategy table. -/
def DEFAULT_FOUND : Nat := 1000000

/-- The `modes_vec` computation of `pick_strategy`: the score table,
optionally filtered down to an allowed subset.  The `HashMap` iteration
order is modelled by the list order. -/
def candidateSet (strategies : List (ScanStrategy × Nat))
    (modes : Option (List ScanStrategy)) : List (ScanStrategy × Nat) :=
  match modes with
  | some ms => strategies.filter (fun p => ms.contains p.1)
  | none => strategies

/-- `StrategyPicker::pick_strategy` with the 1% random-exploration branch
not taken (the claim's hypothesis) and the `benchmark` cfg off: if every
score is 0 or `DEFAULT_FOUND` return `Slash0`; otherwise fold the
candidates through the strict-improvement argmax loop that starts from
`best_mode = Slash0`, `best_score = 0`. -/
def pick_strategy (strategies : List (ScanStrategy × Nat))
    (modes : Option (List ScanStrategy)) : ScanStrategy :=
  if strategies.all (fun p => p.2 == 0 || p.2 == DEFAULT_FOUND) then ScanStrategy.Slash0
  else
    (candidateSet strategies modes |>.foldl
      (fun best p => if p.2 > best.2 then p else best)
      (ScanStrategy.Slash0, 0)).1

/-- The argmax fold returns its initial accumulator or a list element, and
its score bounds every score seen. -/
theorem argmax_foldl (l : List (ScanStrategy × Nat)) : ∀ b : ScanStrategy × Nat,
    (l.foldl (fun best p => if p.2 > best.2 then p else best) b = b ∨
      l.foldl (fun best p => if p.2 > best.2 then p else best) b ∈ l) ∧
    b.2 ≤ (l.foldl (fun best p => if p.2 > best.2 then p else best) b).2 ∧
    ∀ p ∈ l, p.2 ≤ (l.foldl (fun best p => if p.2 > best.2 then p else best) b).2 := by
  induction l with
  | nil =>
    intro b
    exact ⟨Or.inl rfl, le_refl _, by simp⟩
  | cons q l ihl =>
    intro b
    rw [List.foldl_cons]
    by_cases hqb : q.2 > b.2
    · rw [if_pos hqb]
      obtain ⟨hmem, hble, hmax⟩ := ihl q
      refine ⟨?_, by omega, ?_⟩
      · rcases hmem with h | h
        · exact Or.inr (by rw [h]; exact List.mem_cons_self q l)
        · exact Or.inr (List.mem_cons_of_mem _ h)
      · intro p hp
        rcases List.mem_cons.mp hp with h | h
        · rw [h]
          exact hble
        · exact hmax p h
    · rw [if_neg hqb]
      obtain ⟨hmem, hble, hmax⟩ := ihl b
      refine ⟨?_, hble, ?_⟩
      · rcases hmem with h | h
        · exact Or.inl h
        · exact Or.inr (List.mem_cons_of_mem _ h)
      · intro p hp
        rcases List.mem_cons.mp hp with h | h
        · rw [h]
          omega
        · exact hmax p h

/-- The argmax fold never moves off its initial accumulator when no score
strictly beats it. -/
theorem argmax_foldl_id (l : List (ScanStrategy × Nat)) : ∀ b : ScanStrategy × Nat,
    (∀ p ∈ l, p.2 ≤ b.2) →
    l.foldl (fun best p => if p.2 > best.2 then p else best) b = b := by
  induction l with
  | nil =>
    intro b _
    rfl
  | cons q l ihl =>
    intro b hle
    rw [List.foldl_cons, if_neg (by have := hle q (List.mem_cons_self q l); omega)]
    exact ihl b (fun p hp => hle p (List.mem_cons_of_mem _ hp))

/-- C8 (amended): with the exploration branch not taken, `pick_strategy`
returns `Slash0` when every score in the whole table is 0 or
`DEFAULT_FOUND`; otherwise, if some candidate (the table filtered by the
allowed subset) has a positive score it returns a candidate of maximal
score, and if every candidate's score is 0 it returns `Slash0` (which may
lie outside the candidate set). -/
theorem pick_strategy_spec (strategies : List (ScanStrategy × Nat))
    (modes : Option (List ScanStrategy)) :
    (strategies.all (fun p => p.2 == 0 || p.2 == DEFAULT_FOUND) = true →
      pick_strategy strategies modes = ScanStrategy.Slash0) ∧
    (strategies.all (fun p => p.2 == 0 || p.2 == DEFAULT_FOUND) = false →
      ((∃ q ∈ candidateSet strategies modes, 0 < q.2) →
        ∃ p ∈ candidateSet strategies modes,
          pick_strategy strategies modes = p.1 ∧
          ∀ p' ∈ candidateSet strategies modes, p'.2 ≤ p.2) ∧
      ((∀ p ∈ candidateSet strategies modes, p.2 = 0) →
        pick_strategy strategies modes = ScanStrategy.Slash0)) := by
  constructor
  · intro hall
    rw [pick_strategy, if_pos hall]
  · intro hnall
    have hne : ¬ strategies.all (fun p => p.2 == 0 || p.2 == DEFAULT_FOUND) = true := by
      rw [hnall]
      simp
    constructor
    · intro hex
      obtain ⟨q, hq, hqpos⟩ := hex
      obtain ⟨hmem, hble, hmax⟩ := argmax_foldl (candidateSet strategies modes)
        (ScanStrategy.Slash0, 0)
      set r := (candidateSet strategies modes).foldl
        (fun best p => if p.2 > best.2 then p else best) (ScanStrategy.Slash0, 0) with hr
      have hrpos : 0 < r.2 := lt_of_lt_of_le hqpos (hmax q hq)
      have hrmem : r ∈ candidateSet strategies modes := by
        rcases hmem with h | h
        · rw [h] at hrpos
          norm_num at hrpos
        · exact h
      refine ⟨r, hrmem, ?_, hmax⟩
      rw [pick_strategy, if_neg hne]
    · intro hzero
      rw [pick_strategy, if_neg hne]
      rw [argmax_foldl_id (candidateSet strategies modes) (ScanStrategy.Slash0, 0)
        (fun p hp => by rw [hzero p hp])]

/-- C8 (counterexample): with table `{Slash16a: 5, Slash24a: 0}` (so not
every score is 0 or the sentinel) and allowed subset `[Slash24a]`,
`pick_strategy` returns `Slash0`, which is not in the candidate set —
the argmax loop never moves off its `Slash0` default because no candidate
score strictly exceeds 0. -/
theorem pick_strategy_counterexample :
    pick_strategy [(ScanStrategy.Slash16a, 5), (ScanStrategy.Slash24a, 0)]
        (some [ScanStrategy.Slash24a]) = ScanStrategy.Slash0 ∧
    candidateSet [(ScanStrategy.Slash16a, 5), (ScanStrategy.Slash24a, 0)]
        (some [ScanStrategy.Slash24a]) = [(ScanStrategy.Slash24a, 0)] ∧
    (ScanStrategy.Slash0 ∉
      [(ScanStrategy.Slash24a, (0 : Nat))].map (fun p => p.1)) ∧
    ¬ ((5 : Nat) = 0 ∨ (5 : Nat) = DEFAULT_FOUND) := by
  refine ⟨by decide, by decide, by decide, by decide⟩

/-- C8 (witness): the amended picker theorem at the one-entry table
`{Slash16a: 5}` with no subset filter. -/
theorem pick_strategy_spec_witness :
    (([(ScanStrategy.Slash16a, 5)] : List (ScanStrategy × Nat)).all
        (fun p => p.2 == 0 || p.2 == DEFAULT_FOUND) = true →
      pick_strategy [(ScanStrategy.Slash16a, 5)] none = ScanStrategy.Slash0) ∧
    (([(ScanStrategy.Slash16a, 5)] : List (ScanStrategy × Nat)).all
        (fun p => p.2 == 0 || p.2 == DEFAULT_FOUND) = false →
      ((∃ q ∈ candidateSet [(ScanStrategy.Slash16a, 5)] none, 0 < q.2) →
        ∃ p ∈ candidateSet [(ScanStrategy.Slash16a, 5)] none,
          pick_strategy [(ScanStrategy.Slash16a, 5)] none = p.1 ∧
          ∀ p' ∈ candidateSet [(ScanStrategy.Slash16a, 5)] none, p'.2 ≤ p.2) ∧
      ((∀ p ∈ candidateSet [(ScanStrategy.Slash16a, 5)] none, p.2 = 0) →
        pick_strategy [(ScanStrategy.Slash16a, 5)] none = ScanStrategy.Slash0)) :=
  pick_strategy_spec [(ScanStrategy.Slash16a, 5)] none



/-! ## Aliased-IP detector (src/processing/minecraft.rs, src/database/mod.rs, claim C7) -/

/-- `CachedIpHash` (src/database/mod.rs): per-IP fingerprint-hash entry.
`count` is the number of ports seen with the same hash, `none` once a
divergent hash was observed. -/
structure CachedIpHash where
  count : Option Nat
  hash : Nat
  deriving DecidableEq, Repr

/-- The `ips_with_same_hash` cache update of `create_bulk_update`
(src/processing/minecraft.rs) for one successful response of a fixed IP:
`state` is the cache entry for that IP (`none` if absent), `port` the
responding port, `hash` the response fingerprint hash.  Returns the new
entry and the `is_bad_ip` flag.  The `HashSet` of previously checked ports
is a duplicate-free list (insertion happens only behind the `contains`
guard, as in the source). -/
def aliasedStep (state : Option (CachedIpHash × List Nat)) (port hash : Nat) :
    Option (CachedIpHash × List Nat) × Bool :=
  match state with
  | none => (some (⟨some 1, hash⟩, [port]), false)
  | some (data, ports) =>
    if ports.contains port then (some (data, ports), false)
    else
      match data.count with
      | none => (some (data, ports), false)
      | some count =>
        if hash = data.hash then
          (some (⟨some (count + 1), data.hash⟩, port :: ports), decide (count + 1 ≥ 100))
        else
          (some (⟨none, data.hash⟩, ports), false)

/-- Processing a sequence of `(port, hash)` responses for one IP: the final
cache entry and the list of `is_bad_ip` flags in order. -/
def runAliased (state : Option (CachedIpHash × List Nat)) :
    List (Nat × Nat) → Option (CachedIpHash × List Nat) × List Bool
  | [] => (state, [])
  | (port, hash) :: rest =>
    let (state', flag) := aliasedStep state port hash
    let (state'', flags) := runAliased state' rest
    (state'', flag :: flags)

/-- `Database::add_to_bad_ips` (src/database/mod.rs): inserts the IP into
the in-memory `bad_ips` set (it also upserts `bad_servers` and deletes all
rows `addr = ip AND port != 25565`, external I/O not modelled). -/
def add_to_bad_ips (bad_ips : List Nat) (addr : Nat) : List Nat :=
  addr :: bad_ips

/-- The guard at the top of `create_bulk_update`: a response is rejected
(`bail!("bad ip")`) when its IP is in `bad_ips` and the port is not the
allowed port 25565. -/
def bulkUpdateAllowed (bad_ips : List Nat) (ip port : Nat) : Bool :=
  !(bad_ips.contains ip && port != 25565)

/-- Unfolding one response of `runAliased`. -/
theorem runAliased_cons (state : Option (CachedIpHash × List Nat))
    (port hash : Nat) (rest : List (Nat × Nat)) :
    runAliased state ((port, hash) :: rest) =
      ((runAliased (aliasedStep state port hash).1 rest).1,
       (aliasedStep state port hash).2 ::
         (runAliased (aliasedStep state port hash).1 rest).2) := by
  rw [runAliased]

/-- Distinct fresh ports with the stored hash increment the live counter
one by one; the `is_bad_ip` flag fires exactly when the counter reaches
100. -/
theorem runAliased_same_hash (h : Nat) : ∀ (ports : List Nat) (c : Nat) (S : List Nat),
    ports.Nodup → (∀ p ∈ ports, ¬ S.contains p = true) →
    runAliased (some (⟨some c, h⟩, S)) (ports.map (fun p => (p, h))) =
      (some (⟨some (c + ports.length), h⟩, ports.reverse ++ S),
       (List.range ports.length).map (fun i => decide (c + i + 1 ≥ 100))) := by
  intro ports
  induction ports with
  | nil =>
    intro c S _ _
    simp [runAliased]
  | cons p rest ih =>
    intro c S hnd hdisj
    have hpS : p ∉ S := by simpa using hdisj p (List.mem_cons_self p rest)
    have hstep : aliasedStep (some (⟨some c, h⟩, S)) p h =
        (some (⟨some (c + 1), h⟩, p :: S), decide (c + 1 ≥ 100)) := by
      simp [aliasedStep, hpS]
    rw [List.map_cons, runAliased_cons, hstep]
    have hdisj' : ∀ q ∈ rest, ¬ (p :: S).contains q = true := by
      intro q hq
      simp only [List.contains_cons, Bool.or_eq_true, beq_iff_eq]
      push_neg
      refine ⟨?_, by simpa using hdisj q (List.mem_cons_of_mem _ hq)⟩
      intro hqp
      exact absurd (hqp ▸ hq) (List.Nodup.not_mem hnd)
    dsimp only
    rw [ih (c + 1) (p :: S) (List.Nodup.of_cons hnd) hdisj']
    dsimp only
    refine Prod.ext ?_ ?_
    · dsimp only
      have hcount : c + 1 + rest.length = c + (rest.length + 1) := by omega
      simp only [List.length_cons, List.reverse_cons, List.append_assoc,
        List.singleton_append, hcount]
    · dsimp only
      simp only [List.length_cons, List.range_succ_eq_map, List.map_cons, List.map_map]
      congr 1
      apply List.map_congr_left
      intro i _
      simp only [Function.comp_apply, decide_eq_decide, Nat.succ_eq_add_one]
      omega

/-- Once the counter is nulled the cache entry never changes again and the
IP is never classified as aliased. -/
theorem runAliased_nulled (h : Nat) (S : List Nat) : ∀ rs : List (Nat × Nat),
    runAliased (some (⟨none, h⟩, S)) rs =
      (some (⟨none, h⟩, S), List.replicate rs.length false) := by
  intro rs
  induction rs with
  | nil => simp [runAliased]
  | cons r rest ih =>
    obtain ⟨p, h'⟩ := r
    have hstep : aliasedStep (some (⟨none, h⟩, S)) p h' = (some (⟨none, h⟩, S), false) := by
      rw [aliasedStep]
      split
      · rfl
      · rfl
    rw [runAliased_cons, hstep]
    dsimp only
    rw [ih]
    rfl

/-- C7 (amended): starting from no cache entry, 100 successful responses
from distinct ports with identical fingerprint hash reach count 100 at the
100th response, and only that response raises the aliased flag (which adds
the IP to `bad_ips`, after which only port 25565 passes the
`create_bulk_update` guard); a response from a previously-unchecked port
with a different hash nulls the counter, permanently preventing aliased
classification. -/
theorem aliased_trigger (ports : List Nat) (h : Nat) (p0 : Nat)
    (hnd : (p0 :: ports).Nodup) (hlen : ports.length = 99)
    (bad_ips : List Nat) (port' : Nat) (hport' : port' ≠ 25565)
    (c : Nat) (S : List Nat) (q : Nat) (h' : Nat) (hqS : ¬ S.contains q = true)
    (hh' : h' ≠ h) :
    runAliased none ((p0 :: ports).map (fun p => (p, h))) =
      (some (⟨some 100, h⟩, (p0 :: ports).reverse),
       List.replicate 99 false ++ [true]) ∧
    aliasedStep (some (⟨some c, h⟩, S)) q h' = (some (⟨none, h⟩, S), false) ∧
    (∀ rs : List (Nat × Nat),
      runAliased (some (⟨none, h⟩, S)) rs =
        (some (⟨none, h⟩, S), List.replicate rs.length false)) ∧
    bulkUpdateAllowed (add_to_bad_ips bad_ips 12345) 12345 25565 = true ∧
    bulkUpdateAllowed (add_to_bad_ips bad_ips 12345) 12345 port' = false := by
  refine ⟨?_, ?_, runAliased_nulled h S, ?_, ?_⟩
  · have hstep : aliasedStep none p0 h = (some (⟨some 1, h⟩, [p0]), false) := rfl
    rw [List.map_cons, runAliased_cons, hstep]
    have hdisj : ∀ p ∈ ports, ¬ ([p0].contains p = true) := by
      intro p hp
      simp only [List.contains_cons, List.contains_nil, Bool.or_false, beq_iff_eq]
      intro hpp0
      rw [List.nodup_cons] at hnd
      exact absurd (hpp0 ▸ hp) hnd.1
    dsimp only
    rw [runAliased_same_hash h ports 1 [p0] (List.Nodup.of_cons hnd) hdisj]
    dsimp only
    rw [hlen]
    refine Prod.ext ?_ ?_
    · dsimp only
      rw [List.reverse_cons]
    · dsimp only
      show false :: (List.range 99).map (fun i => decide (1 + i + 1 ≥ 100)) =
        List.replicate 99 false ++ [true]
      decide
  · have hqS2 : q ∉ S := by simpa using hqS
    simp [aliasedStep, hqS2, hh']
  · simp [bulkUpdateAllowed, add_to_bad_ips]
  · simp [bulkUpdateAllowed, add_to_bad_ips, hport']

/-- C7 (counterexample): a port that was already checked and later answers
with a different hash is ignored by the `previously_checked_ports` guard —
the count is not nulled, and the IP is still classified as aliased by the
100th fresh port.  Ports 0–98 answer hash 7, then port 0 answers hash 8
(ignored), then port 99 answers hash 7 and the final flag is true. -/
theorem aliased_ip_counterexample :
    (runAliased none (((List.range 99).map (fun p => (p, 7))) ++ [(0, 8), (99, 7)])).2.getLast?
      = some true ∧
    (8 : Nat) ≠ 7 ∧
    ((0, 8) : Nat × Nat) ∈ (((List.range 99).map (fun p => (p, 7))) ++ [(0, 8), (99, 7)]) ∧
    ((0, 7) : Nat × Nat) ∈ (((List.range 99).map (fun p => (p, 7))) ++ [(0, 8), (99, 7)]) := by
  refine ⟨by decide, by decide, by decide, by decide⟩

/-- C7 (witness): the trigger theorem at ports `99 :: range 99`, hash 7,
a nulled-entry instance, and the bad-ips gate at IP 12345. -/
theorem aliased_trigger_witness :
    (runAliased none ((99 :: List.range 99).map (fun p => (p, 7))) =
      (some (⟨some 100, 7⟩, (99 :: List.range 99).reverse),
       List.replicate 99 false ++ [true]) ∧
    aliasedStep (some (⟨some 7, 7⟩, [1])) 2 5 = (some (⟨none, 7⟩, [1]), false) ∧
    (∀ rs : List (Nat × Nat),
      runAliased (some (⟨none, 7⟩, [1])) rs =
        (some (⟨none, 7⟩, [1]), List.replicate rs.length false)) ∧
    bulkUpdateAllowed (add_to_bad_ips [] 12345) 12345 25565 = true ∧
    bulkUpdateAllowed (add_to_bad_ips [] 12345) 12345 80 = false) :=
  aliased_trigger (List.range 99) 7 99 (by decide) (by decide) [] 80 (by decide)
    7 [1] 2 5 (by decide) (by decide)




/-! ## StaticScanRanges indexing (src/scanner/targets.rs, claim C2) -/

/-- A `ScanRange` satisfying the struct invariants whose port interval is
not the full `0..=65535` (so `count_ports` does not wrap). -/
def ScanRange.Proper (r : ScanRange) : Prop :=
  r.WF ∧ r.port_end - r.port_start < u16Card - 1

/-- `StaticScanRange` (targets.rs): a range with its precomputed count and
cumulative start index. -/
structure StaticScanRange where
  range : ScanRange
  count : Nat
  index : Nat
  deriving DecidableEq, Repr

/-- `StaticScanRanges`: the immutable prefix-sum snapshot. -/
structure StaticScanRanges where
  ranges : List StaticScanRange
  count : Nat
  deriving DecidableEq, Repr

/-- `ScanRanges::count`: sum of the per-range counts (the source loop
`total += range.count()`). -/
def ScanRanges.count (rs : List ScanRange) : Nat :=
  rs.foldl (fun total r => total + r.count) 0

/-- The accumulation loop of `ScanRanges::to_static`: builds the static
ranges while threading the running `index`; the second component is the
final index, i.e. the total count. -/
def ScanRanges.to_staticAux : List ScanRange → Nat → List StaticScanRange × Nat
  | [], index => ([], index)
  | r :: rest, index =>
    (⟨r, r.count, index⟩ :: (ScanRanges.to_staticAux rest (index + r.count)).1,
     (ScanRanges.to_staticAux rest (index + r.count)).2)

/-- `ScanRanges::to_static`. -/
def ScanRanges.to_static (rs : List ScanRange) : StaticScanRanges :=
  ⟨(ScanRanges.to_staticAux rs 0).1, (ScanRanges.to_staticAux rs 0).2⟩

/-- Binary-search loop of `StaticScanRanges::index`; `none` models the
`panic!("index out of bounds")` fallthrough and the `Vec` indexing panic
(unreachable for in-bounds windows). -/
def StaticScanRanges.indexLoop (ranges : List StaticScanRange) (i : Nat)
    (start stop : Nat) : Option (Nat × Nat) :=
  if _h : start < stop then
    match ranges[(start + stop) / 2]? with
    | none => none
    | some range =>
      if range.index + range.count ≤ i then
        StaticScanRanges.indexLoop ranges i ((start + stop) / 2 + 1) stop
      else if range.index > i then
        StaticScanRanges.indexLoop ranges i start ((start + stop) / 2)
      else some (range.range.index (i - range.index))
  else none
termination_by stop - start
decreasing_by
  all_goals omega

/-- `StaticScanRanges::index`: find the range containing the flat index by
binary search, then delegate to the range's row-major indexing. -/
def StaticScanRanges.index (s : StaticScanRanges) (i : Nat) : Option (Nat × Nat) :=
  StaticScanRanges.indexLoop s.ranges i 0 s.ranges.length

/-- Reference linear lookup: walk the ranges, subtracting counts. -/
def linIndex : List ScanRange → Nat → Option (Nat × Nat)
  | [], _ => none
  | r :: rest, k => if k < r.count then some (r.index k) else linIndex rest (k - r.count)

/-! ### Arithmetic facts about a single proper range -/

theorem count_ports_eq (r : ScanRange) (hp : r.Proper) :
    r.count_ports = r.port_end - r.port_start + 1 := by
  unfold ScanRange.count_ports
  have hs := hp.2
  unfold u16Card at hs ⊢
  exact Nat.mod_eq_of_lt (by omega)

theorem count_ports_pos (r : ScanRange) (hp : r.Proper) : 0 < r.count_ports := by
  rw [count_ports_eq r hp]
  omega

theorem range_index_eq (r : ScanRange) (hp : r.Proper) (k : Nat) (hk : k < r.count) :
    r.index k = (r.ip_start + k / r.count_ports, r.port_start + k % r.count_ports) := by
  have hpc := count_ports_pos r hp
  have hpe := count_ports_eq r hp
  obtain ⟨⟨h1, h2, h3, h4⟩, hspan⟩ := hp
  have hdiv : k / r.count_ports ≤ r.ip_end - r.ip_start := by
    have hlt : k / r.count_ports < r.count_addresses := by
      apply Nat.div_lt_of_lt_mul
      rw [mul_comm]
      exact hk
    unfold ScanRange.count_addresses at hlt
    omega
  have hip : r.ip_start + k / r.count_ports < u32Card := by
    unfold u32Card at h2 ⊢
    omega
  have hport : r.port_start + k % r.count_ports < u16Card := by
    have hm : k % r.count_ports < r.count_ports := Nat.mod_lt _ hpc
    have hcb := hpe
    unfold u16Card at h4 ⊢
    omega
  unfold ScanRange.index
  rw [Nat.mod_eq_of_lt hip, Nat.mod_eq_of_lt hport]

theorem range_index_covers (r : ScanRange) (hp : r.Proper) (k : Nat) (hk : k < r.count) :
    r.coversPair (r.index k).1 (r.index k).2 := by
  rw [range_index_eq r hp k hk]
  have hpc := count_ports_pos r hp
  have hpe := count_ports_eq r hp
  obtain ⟨⟨h1, h2, h3, h4⟩, hspan⟩ := hp
  have hdiv : k / r.count_ports ≤ r.ip_end - r.ip_start := by
    have hlt : k / r.count_ports < r.count_addresses := by
      apply Nat.div_lt_of_lt_mul
      rw [mul_comm]
      exact hk
    unfold ScanRange.count_addresses at hlt
    omega
  have hm : k % r.count_ports < r.count_ports := Nat.mod_lt _ hpc
  have hcb := hpe
  dsimp only
  generalize hgd : k / r.count_ports = kd at hdiv ⊢
  generalize hgm : k % r.count_ports = km at hm ⊢
  refine ⟨by omega, by omega, by omega, by omega⟩

theorem range_index_inj (r : ScanRange) (hp : r.Proper) (k1 k2 : Nat)
    (hk1 : k1 < r.count) (hk2 : k2 < r.count) (heq : r.index k1 = r.index k2) :
    k1 = k2 := by
  rw [range_index_eq r hp k1 hk1, range_index_eq r hp k2 hk2] at heq
  obtain ⟨hfst, hsnd⟩ := Prod.mk.injEq _ _ _ _ ▸ heq
  have hd : k1 / r.count_ports = k2 / r.count_ports := by omega
  have hm : k1 % r.count_ports = k2 % r.count_ports := by omega
  have e1 := Nat.div_add_mod k1 r.count_ports
  have e2 := Nat.div_add_mod k2 r.count_ports
  calc k1 = r.count_ports * (k1 / r.count_ports) + k1 % r.count_ports := e1.symm
    _ = r.count_ports * (k2 / r.count_ports) + k2 % r.count_ports := by rw [hd, hm]
    _ = k2 := e2

theorem range_index_surj (r : ScanRange) (hp : r.Proper) (ip port : Nat)
    (hcov : r.coversPair ip port) :
    ∃ k, k < r.count ∧ r.index k = (ip, port) := by
  obtain ⟨hc1, hc2, hc3, hc4⟩ := hcov
  have hpc := count_ports_pos r hp
  have hpe := count_ports_eq r hp
  have hrie := range_index_eq r hp
  obtain ⟨⟨h1, h2, h3, h4⟩, hspan⟩ := hp
  have hpo : port - r.port_start < r.count_ports := by
    rw [hpe]
    omega
  have hklt : (ip - r.ip_start) * r.count_ports + (port - r.port_start) < r.count := by
    unfold ScanRange.count ScanRange.count_addresses
    calc (ip - r.ip_start) * r.count_ports + (port - r.port_start)
        < (ip - r.ip_start) * r.count_ports + r.count_ports := by omega
      _ = (ip - r.ip_start + 1) * r.count_ports := by ring
      _ ≤ (r.ip_end - r.ip_start + 1) * r.count_ports := by
          apply Nat.mul_le_mul_right
          omega
  refine ⟨(ip - r.ip_start) * r.count_ports + (port - r.port_start), hklt, ?_⟩
  rw [hrie _ hklt]
  have hkdiv : ((ip - r.ip_start) * r.count_ports + (port - r.port_start)) / r.count_ports
      = ip - r.ip_start := by
    rw [mul_comm (ip - r.ip_start) r.count_ports, Nat.mul_add_div hpc,
      Nat.div_eq_of_lt hpo]
    omega
  have hkmod : ((ip - r.ip_start) * r.count_ports + (port - r.port_start)) % r.count_ports
      = port - r.port_start := by
    rw [mul_comm (ip - r.ip_start) r.count_ports, Nat.mul_add_mod,
      Nat.mod_eq_of_lt hpo]
  rw [Prod.mk.injEq]
  constructor
  · omega
  · omega

/-! ### Prefix-sum structure of to_static -/

theorem foldl_count_shift : ∀ (l : List ScanRange) (a : Nat),
    l.foldl (fun t x => t + x.count) a = a + l.foldl (fun t x => t + x.count) 0 := by
  intro l
  induction l with
  | nil =>
    intro a
    simp
  | cons x l ih =>
    intro a
    rw [List.foldl_cons, List.foldl_cons, ih (a + x.count), ih (0 + x.count)]
    omega

theorem ScanRanges.count_cons (r : ScanRange) (l : List ScanRange) :
    ScanRanges.count (r :: l) = r.count + ScanRanges.count l := by
  unfold ScanRanges.count
  rw [List.foldl_cons, foldl_count_shift]
  omega

theorem to_staticAux_mem : ∀ (l : List ScanRange) (b : Nat),
    ∀ s ∈ (ScanRanges.to_staticAux l b).1,
      s.count = s.range.count ∧ b ≤ s.index ∧ s.range ∈ l := by
  intro l
  induction l with
  | nil =>
    intro b s hs
    simp [ScanRanges.to_staticAux] at hs
  | cons r rest ih =>
    intro b s hs
    rw [ScanRanges.to_staticAux] at hs
    rcases List.mem_cons.mp hs with h | h
    · subst h
      exact ⟨rfl, le_refl _, List.mem_cons_self _ _⟩
    · obtain ⟨hc, hb, hm⟩ := ih (b + r.count) s h
      exact ⟨hc, by omega, List.mem_cons_of_mem _ hm⟩

theorem to_staticAux_pairwise : ∀ (l : List ScanRange) (b : Nat),
    (ScanRanges.to_staticAux l b).1.Pairwise (fun x y => x.index + x.count ≤ y.index) := by
  intro l
  induction l with
  | nil =>
    intro b
    simp [ScanRanges.to_staticAux]
  | cons r rest ih =>
    intro b
    rw [ScanRanges.to_staticAux]
    refine List.Pairwise.cons ?_ (ih (b + r.count))
    intro s hs
    have := (to_staticAux_mem rest (b + r.count) s hs).2.1
    dsimp only
    omega

theorem to_staticAux_length : ∀ (l : List ScanRange) (b : Nat),
    (ScanRanges.to_staticAux l b).1.length = l.length := by
  intro l
  induction l with
  | nil =>
    intro b
    rfl
  | cons r rest ih =>
    intro b
    rw [ScanRanges.to_staticAux]
    simp only [List.length_cons, ih (b + r.count)]

theorem to_staticAux_window : ∀ (l : List ScanRange) (b k : Nat),
    k < ScanRanges.count l →
    ∃ j, ∃ (hj : j < (ScanRanges.to_staticAux l b).1.length),
      ((ScanRanges.to_staticAux l b).1[j]).index ≤ b + k ∧
      b + k < ((ScanRanges.to_staticAux l b).1[j]).index +
        ((ScanRanges.to_staticAux l b).1[j]).count ∧
      some (((ScanRanges.to_staticAux l b).1[j]).range.index
        (b + k - ((ScanRanges.to_staticAux l b).1[j]).index)) = linIndex l k := by
  intro l
  induction l with
  | nil =>
    intro b k hk
    simp [ScanRanges.count] at hk
  | cons r rest ih =>
    intro b k hk
    rw [ScanRanges.count_cons] at hk
    by_cases hlt : k < r.count
    · have hlen : 0 < (ScanRanges.to_staticAux (r :: rest) b).1.length := by
        rw [to_staticAux_length]
        simp
      refine ⟨0, hlen, ?_⟩
      have hget : (ScanRanges.to_staticAux (r :: rest) b).1[0] =
          (⟨r, r.count, b⟩ : StaticScanRange) := by
        simp [ScanRanges.to_staticAux]
      rw [hget]
      dsimp only
      refine ⟨by omega, by omega, ?_⟩
      rw [linIndex, if_pos hlt]
      have hbk : b + k - b = k := by omega
      rw [hbk]
    · obtain ⟨j, hj, h1, h2, h3⟩ := ih (b + r.count) (k - r.count) (by omega)
      have hlen : j + 1 < (ScanRanges.to_staticAux (r :: rest) b).1.length := by
        rw [to_staticAux_length] at hj ⊢
        simp only [List.length_cons]
        omega
      refine ⟨j + 1, hlen, ?_⟩
      have hget : (ScanRanges.to_staticAux (r :: rest) b).1[j + 1] =
          (ScanRanges.to_staticAux rest (b + r.count)).1[j] := by
        simp [ScanRanges.to_staticAux]
      rw [hget]
      have hbk : b + k = b + r.count + (k - r.count) := by omega
      rw [hbk]
      refine ⟨h1, h2, ?_⟩
      rw [linIndex, if_neg hlt]
      exact h3

/-! ### Binary-search correctness of StaticScanRanges.index -/

theorem indexLoop_cons_eq (l : List StaticScanRange) (k s e : Nat) (hse : s < e)
    (r : StaticScanRange) (hr : l[(s + e) / 2]? = some r) :
    StaticScanRanges.indexLoop l k s e =
      (if r.index + r.count ≤ k then StaticScanRanges.indexLoop l k ((s + e) / 2 + 1) e
       else if r.index > k then StaticScanRanges.indexLoop l k s ((s + e) / 2)
       else some (r.range.index (k - r.index))) := by
  rw [StaticScanRanges.indexLoop, dif_pos hse, hr]

theorem indexLoop_found (l : List StaticScanRange) (k : Nat)
    (hpair : l.Pairwise (fun x y => x.index + x.count ≤ y.index)) :
    ∀ n s e, e - s ≤ n → e ≤ l.length →
    (∀ i (hi : i < l.length), i < s → (l[i]).index + (l[i]).count ≤ k) →
    (∀ i (hi : i < l.length), e ≤ i → k < (l[i]).index) →
    ∀ j (hj : j < l.length), (l[j]).index ≤ k → k < (l[j]).index + (l[j]).count →
    StaticScanRanges.indexLoop l k s e = some ((l[j]).range.index (k - (l[j]).index)) := by
  have hpg : ∀ i j (hi : i < l.length) (hj : j < l.length), i < j →
      (l[i]).index + (l[i]).count ≤ (l[j]).index := by
    intro i j hi hj hij
    have := List.pairwise_iff_get.mp hpair ⟨i, hi⟩ ⟨j, hj⟩ hij
    simpa using this
  intro n
  induction n with
  | zero =>
    intro s e hme he h1 h2 j hj hjk hkj
    have hjs : s ≤ j := by
      by_contra hc
      have := h1 j hj (by omega)
      omega
    have hje : j < e := by
      by_contra hc
      have := h2 j hj (by omega)
      omega
    omega
  | succ n ihn =>
    intro s e hme he h1 h2 j hj hjk hkj
    have hjs : s ≤ j := by
      by_contra hc
      have := h1 j hj (by omega)
      omega
    have hje : j < e := by
      by_contra hc
      have := h2 j hj (by omega)
      omega
    have hse : s < e := by omega
    have hmidlt : (s + e) / 2 < l.length := by omega
    have hget : l[(s + e) / 2]? = some (l[(s + e) / 2]) := List.getElem?_eq_getElem hmidlt
    rw [indexLoop_cons_eq l k s e hse _ hget]
    by_cases hc1 : (l[(s + e) / 2]).index + (l[(s + e) / 2]).count ≤ k
    · rw [if_pos hc1]
      have hjmid : (s + e) / 2 < j := by
        rcases Nat.lt_trichotomy j ((s + e) / 2) with h | h | h
        · have := hpg j ((s + e) / 2) hj hmidlt h
          omega
        · subst h
          omega
        · exact h
      refine ihn ((s + e) / 2 + 1) e (by omega) he ?_ h2 j hj hjk hkj
      intro i hi hilt
      rcases Nat.lt_trichotomy i ((s + e) / 2) with h | h | h
      · have := hpg i ((s + e) / 2) hi hmidlt h
        omega
      · subst h
        exact hc1
      · omega
    · rw [if_neg hc1]
      by_cases hc2 : (l[(s + e) / 2]).index > k
      · rw [if_pos hc2]
        have hjmid : j < (s + e) / 2 := by
          rcases Nat.lt_trichotomy j ((s + e) / 2) with h | h | h
          · exact h
          · subst h
            omega
          · have := hpg ((s + e) / 2) j hmidlt hj h
            omega
        refine ihn s ((s + e) / 2) (by omega) (by omega) h1 ?_ j hj hjk hkj
        intro i hi hile
        rcases Nat.lt_trichotomy i ((s + e) / 2) with h | h | h
        · omega
        · subst h
          omega
        · have := hpg ((s + e) / 2) i hmidlt hi h
          omega
      · rw [if_neg hc2]
        have hjeq : j = (s + e) / 2 := by
          rcases Nat.lt_trichotomy j ((s + e) / 2) with h | h | h
          · have := hpg j ((s + e) / 2) hj hmidlt h
            omega
          · exact h
          · have := hpg ((s + e) / 2) j hmidlt hj h
            omega
        subst hjeq
        rfl

theorem static_index_eq_lin (l : List ScanRange) (k : Nat)
    (hk : k < ScanRanges.count l) :
    StaticScanRanges.index (ScanRanges.to_static l) k = linIndex l k := by
  obtain ⟨j, hj, h1, h2, h3⟩ := to_staticAux_window l 0 k hk
  rw [Nat.zero_add] at h1 h2 h3
  show StaticScanRanges.indexLoop (ScanRanges.to_staticAux l 0).1 k 0
      (ScanRanges.to_staticAux l 0).1.length = linIndex l k
  rw [indexLoop_found (ScanRanges.to_staticAux l 0).1 k (to_staticAux_pairwise l 0)
    (ScanRanges.to_staticAux l 0).1.length 0 (ScanRanges.to_staticAux l 0).1.length
    (by omega) (le_refl _) (by omega) (by intro i hi hle; omega) j hj h1 h2]
  exact h3

/-! ### Bijectivity of the linear lookup -/

theorem linIndex_covers : ∀ (l : List ScanRange), (∀ r ∈ l, r.Proper) →
    ∀ k, k < ScanRanges.count l →
    ∃ a, linIndex l k = some a ∧ ∃ r ∈ l, r.coversPair a.1 a.2 := by
  intro l
  induction l with
  | nil =>
    intro _ k hk
    simp [ScanRanges.count] at hk
  | cons r rest ih =>
    intro hp k hk
    rw [ScanRanges.count_cons] at hk
    by_cases hlt : k < r.count
    · refine ⟨r.index k, by rw [linIndex, if_pos hlt], r, List.mem_cons_self _ _, ?_⟩
      exact range_index_covers r (hp r (List.mem_cons_self _ _)) k hlt
    · obtain ⟨a, ha, s, hs, hcov⟩ :=
        ih (fun x hx => hp x (List.mem_cons_of_mem _ hx)) (k - r.count) (by omega)
      exact ⟨a, by rw [linIndex, if_neg hlt]; exact ha, s, List.mem_cons_of_mem _ hs, hcov⟩

theorem linIndex_inj : ∀ (l : List ScanRange), (∀ r ∈ l, r.Proper) →
    l.Pairwise (fun x y => x.ip_end < y.ip_start) →
    ∀ k1 k2, k1 < ScanRanges.count l → k2 < ScanRanges.count l →
    linIndex l k1 = linIndex l k2 → k1 = k2 := by
  intro l
  induction l with
  | nil =>
    intro _ _ k1 k2 hk1 _ _
    simp [ScanRanges.count] at hk1
  | cons r rest ih =>
    intro hp hpw k1 k2 hk1 hk2 heq
    rw [ScanRanges.count_cons] at hk1 hk2
    have hrp : r.Proper := hp r (List.mem_cons_self _ _)
    have hp' : ∀ x ∈ rest, x.Proper := fun x hx => hp x (List.mem_cons_of_mem _ hx)
    have hsep : ∀ s ∈ rest, r.ip_end < s.ip_start := fun s hs =>
      (List.pairwise_cons.mp hpw).1 s hs
    by_cases h1 : k1 < r.count <;> by_cases h2 : k2 < r.count
    · rw [linIndex, if_pos h1, linIndex, if_pos h2] at heq
      exact range_index_inj r hrp k1 k2 h1 h2 (Option.some.inj heq)
    · rw [linIndex, if_pos h1, linIndex, if_neg h2] at heq
      obtain ⟨a, ha, s, hs, hcov⟩ := linIndex_covers rest hp' (k2 - r.count) (by omega)
      rw [ha] at heq
      have haidx : a = r.index k1 := (Option.some.inj heq).symm
      have hc1 := range_index_covers r hrp k1 h1
      have hip1 : a.1 ≤ r.ip_end := by
        rw [haidx]
        exact hc1.2.1
      have hip2 : s.ip_start ≤ a.1 := hcov.1
      have := hsep s hs
      omega
    · rw [linIndex, if_neg h1, linIndex, if_pos h2] at heq
      obtain ⟨a, ha, s, hs, hcov⟩ := linIndex_covers rest hp' (k1 - r.count) (by omega)
      rw [ha] at heq
      have haidx : a = r.index k2 := Option.some.inj heq
      have hc2 := range_index_covers r hrp k2 h2
      have hip1 : a.1 ≤ r.ip_end := by
        rw [haidx]
        exact hc2.2.1
      have hip2 : s.ip_start ≤ a.1 := hcov.1
      have := hsep s hs
      omega
    · rw [linIndex, if_neg h1, linIndex, if_neg h2] at heq
      have := ih hp' (List.Pairwise.of_cons hpw) (k1 - r.count) (k2 - r.count)
        (by omega) (by omega) heq
      omega

theorem linIndex_surj : ∀ (l : List ScanRange), (∀ r ∈ l, r.Proper) →
    ∀ ip port, (∃ r ∈ l, r.coversPair ip port) →
    ∃ k, k < ScanRanges.count l ∧ linIndex l k = some (ip, port) := by
  intro l
  induction l with
  | nil =>
    intro _ ip port hex
    simp at hex
  | cons r rest ih =>
    intro hp ip port hex
    rw [ScanRanges.count_cons]
    by_cases hc : r.coversPair ip port
    · obtain ⟨k, hk, hik⟩ := range_index_surj r (hp r (List.mem_cons_self _ _)) ip port hc
      exact ⟨k, by omega, by rw [linIndex, if_pos hk, hik]⟩
    · obtain ⟨s, hs, hcov⟩ := hex
      rcases List.mem_cons.mp hs with h | h
      · exact absurd (h ▸ hcov) hc
      · obtain ⟨k, hk, hik⟩ :=
          ih (fun x hx => hp x (List.mem_cons_of_mem _ hx)) ip port ⟨s, h, hcov⟩
        refine ⟨r.count + k, by omega, ?_⟩
        rw [linIndex, if_neg (by omega)]
        have hsub : r.count + k - r.count = k := by omega
        rw [hsub]
        exact hik


instance (r : ScanRange) : Decidable r.Proper := by
  unfold ScanRange.Proper
  infer_instance

/-- C2 (amended): for well-formed, pairwise IP-disjoint ranges whose port
intervals are not the full `0..=65535`, the map `k ↦ to_static().index(k)`
on `[0, count())` hits exactly the (ip, port) pairs covered by the ranges,
each exactly once (it is defined and covered for every `k`, surjective
onto the covered pairs, and injective), and within a single range index
`k` yields `(ip_start + k / port_count, port_start + k mod port_count)`
in row-major order. -/
theorem static_index_bijection (l : List ScanRange)
    (hp : ∀ r ∈ l, r.Proper)
    (hdisj : l.Pairwise (fun x y => x.ip_end < y.ip_start)) :
    (∀ k, k < ScanRanges.count l →
      ∃ a, StaticScanRanges.index (ScanRanges.to_static l) k = some a ∧
        ∃ r ∈ l, r.coversPair a.1 a.2) ∧
    (∀ ip port, (∃ r ∈ l, r.coversPair ip port) →
      ∃ k, k < ScanRanges.count l ∧
        StaticScanRanges.index (ScanRanges.to_static l) k = some (ip, port)) ∧
    (∀ k1 k2, k1 < ScanRanges.count l → k2 < ScanRanges.count l →
      StaticScanRanges.index (ScanRanges.to_static l) k1 =
        StaticScanRanges.index (ScanRanges.to_static l) k2 → k1 = k2) ∧
    (∀ r ∈ l, ∀ k, k < r.count →
      r.index k = (r.ip_start + k / r.count_ports, r.port_start + k % r.count_ports)) := by
  refine ⟨?_, ?_, ?_, ?_⟩
  · intro k hk
    obtain ⟨a, ha, hcov⟩ := linIndex_covers l hp k hk
    exact ⟨a, by rw [static_index_eq_lin l k hk]; exact ha, hcov⟩
  · intro ip port hex
    obtain ⟨k, hk, hik⟩ := linIndex_surj l hp ip port hex
    exact ⟨k, hk, by rw [static_index_eq_lin l k hk]; exact hik⟩
  · intro k1 k2 hk1 hk2 heq
    rw [static_index_eq_lin l k1 hk1, static_index_eq_lin l k2 hk2] at heq
    exact linIndex_inj l hp hdisj k1 k2 hk1 hk2 heq
  · intro r hr k hk
    exact range_index_eq r (hp r hr) k hk

/-- C2 (counterexample): `ScanRanges` tolerates overlapping ranges, and a
duplicated range breaks the "exactly once" part of the claim: with two
copies of the single-pair range `[0,0] × [1,1]`, `count` is 2 and indices
0 and 1 both map to the pair `(0, 1)`. -/
theorem static_index_counterexample :
    ScanRanges.count [(⟨0, 0, 1, 1⟩ : ScanRange), ⟨0, 0, 1, 1⟩] = 2 ∧
    StaticScanRanges.index (ScanRanges.to_static [(⟨0, 0, 1, 1⟩ : ScanRange), ⟨0, 0, 1, 1⟩]) 0
      = some (0, 1) ∧
    StaticScanRanges.index (ScanRanges.to_static [(⟨0, 0, 1, 1⟩ : ScanRange), ⟨0, 0, 1, 1⟩]) 1
      = some (0, 1) ∧
    (0 : Nat) ≠ 1 := by
  refine ⟨by decide, ?_, ?_, by decide⟩
  · rw [static_index_eq_lin _ 0 (by decide)]
    decide
  · rw [static_index_eq_lin _ 1 (by decide)]
    decide

/-- C2 (witness): the bijection theorem at the single proper range
`[0,5] × [10,12]`. -/
theorem static_index_bijection_witness :
    (∀ k, k < ScanRanges.count [(⟨0, 5, 10, 12⟩ : ScanRange)] →
      ∃ a, StaticScanRanges.index (ScanRanges.to_static [(⟨0, 5, 10, 12⟩ : ScanRange)]) k
          = some a ∧
        ∃ r ∈ [(⟨0, 5, 10, 12⟩ : ScanRange)], r.coversPair a.1 a.2) ∧
    (∀ ip port, (∃ r ∈ [(⟨0, 5, 10, 12⟩ : ScanRange)], r.coversPair ip port) →
      ∃ k, k < ScanRanges.count [(⟨0, 5, 10, 12⟩ : ScanRange)] ∧
        StaticScanRanges.index (ScanRanges.to_static [(⟨0, 5, 10, 12⟩ : ScanRange)]) k
          = some (ip, port)) ∧
    (∀ k1 k2, k1 < ScanRanges.count [(⟨0, 5, 10, 12⟩ : ScanRange)] →
      k2 < ScanRanges.count [(⟨0, 5, 10, 12⟩ : ScanRange)] →
      StaticScanRanges.index (ScanRanges.to_static [(⟨0, 5, 10, 12⟩ : ScanRange)]) k1 =
        StaticScanRanges.index (ScanRanges.to_static [(⟨0, 5, 10, 12⟩ : ScanRange)]) k2 →
      k1 = k2) ∧
    (∀ r ∈ [(⟨0, 5, 10, 12⟩ : ScanRange)], ∀ k, k < r.count →
      r.index k = (r.ip_start + k / r.count_ports, r.port_start + k % r.count_ports)) :=
  static_index_bijection [⟨0, 5, 10, 12⟩] (by decide) (by simp)



/-! ## C1: ScanRanges::apply_exclude (src/scanner/targets.rs) -/

/-- The loop body of `ScanRanges::apply_exclude`: state is the current
`scan_range`, the remaining scan iterator, the current `exclude_range` and
the remaining exclude iterator; result is the pair (surviving ranges,
removed ranges), including the post-loop `ranges.extend(scan_ranges)`. -/
def ScanRanges.applyExcludeLoop (sr : ScanRange) (scans : List ScanRange)
    (ex : Ipv4Range) (exs : List Ipv4Range) : List ScanRange × List Ipv4Range :=
  if sr.ip_end < ex.start then
    -- scan_range is before exclude_range
    match scans with
    | next :: rest =>
      (sr :: (ScanRanges.applyExcludeLoop next rest ex exs).1,
       (ScanRanges.applyExcludeLoop next rest ex exs).2)
    | [] => ([sr], [])
  else if sr.ip_start > ex.stop then
    -- scan_range is after exclude_range
    match exs with
    | e :: rest => ScanRanges.applyExcludeLoop sr scans e rest
    | [] => (sr :: scans, [])
  else if sr.ip_start < ex.start ∧ sr.ip_end > ex.stop then
    -- scan_range contains exclude_range
    (ScanRange.mk sr.ip_start (ex.start - 1) sr.port_start sr.port_end ::
       (ScanRanges.applyExcludeLoop { sr with ip_start := ex.stop + 1 } scans ex exs).1,
     ex :: (ScanRanges.applyExcludeLoop { sr with ip_start := ex.stop + 1 } scans ex exs).2)
  else if sr.ip_start < ex.start then
    -- cut off the right side
    match scans with
    | next :: rest =>
      (ScanRange.mk sr.ip_start (ex.start - 1) sr.port_start sr.port_end ::
         (ScanRanges.applyExcludeLoop next rest ex exs).1,
       Ipv4Range.mk ex.start sr.ip_end ::
         (ScanRanges.applyExcludeLoop next rest ex exs).2)
    | [] =>
      ([ScanRange.mk sr.ip_start (ex.start - 1) sr.port_start sr.port_end],
       [Ipv4Range.mk ex.start sr.ip_end])
  else if sr.ip_end > ex.stop then
    -- cut off the left side
    ((ScanRanges.applyExcludeLoop { sr with ip_start := ex.stop + 1 } scans ex exs).1,
     Ipv4Range.mk sr.ip_start ex.stop ::
       (ScanRanges.applyExcludeLoop { sr with ip_start := ex.stop + 1 } scans ex exs).2)
  else
    -- scan_range is contained within exclude_range
    match scans with
    | next :: rest =>
      ((ScanRanges.applyExcludeLoop next rest ex exs).1,
       Ipv4Range.mk sr.ip_start sr.ip_end ::
         (ScanRanges.applyExcludeLoop next rest ex exs).2)
    | [] => ([], [Ipv4Range.mk sr.ip_start sr.ip_end])
termination_by (scans.length + exs.length, sr.ip_end + 1 - sr.ip_start)
decreasing_by
  all_goals simp_wf
  all_goals first
    | (apply Prod.Lex.left
       omega)
    | (apply Prod.Lex.right
       omega)

/-- `ScanRanges::apply_exclude`: the early returns for empty exclude or
scan lists, then the loop. -/
def ScanRanges.apply_exclude (ranges : List ScanRange) (excludes : List Ipv4Range) :
    List ScanRange × List Ipv4Range :=
  match excludes with
  | [] => (ranges, [])
  | ex :: exs =>
    match ranges with
    | [] => ([], [])
    | sr :: srs => ScanRanges.applyExcludeLoop sr srs ex exs

/-- Some range of the list covers the (ip, port) pair. -/
def pairCov (l : List ScanRange) (ip port : Nat) : Prop :=
  ∃ r ∈ l, r.coversPair ip port

/-- Some range of the list covers the IP. -/
def ipCov (l : List ScanRange) (ip : Nat) : Prop :=
  ∃ r ∈ l, r.coversIp ip

/-- Some exclude range of the list covers the IP. -/
def exCov (l : List Ipv4Range) (ip : Nat) : Prop :=
  ∃ e ∈ l, e.covers ip

@[simp] theorem pairCov_nil (ip port : Nat) : pairCov [] ip port ↔ False := by
  simp [pairCov]

@[simp] theorem pairCov_cons (r : ScanRange) (l : List ScanRange) (ip port : Nat) :
    pairCov (r :: l) ip port ↔ r.coversPair ip port ∨ pairCov l ip port := by
  simp [pairCov]

@[simp] theorem ipCov_nil (ip : Nat) : ipCov [] ip ↔ False := by
  simp [ipCov]

@[simp] theorem ipCov_cons (r : ScanRange) (l : List ScanRange) (ip : Nat) :
    ipCov (r :: l) ip ↔ r.coversIp ip ∨ ipCov l ip := by
  simp [ipCov]

@[simp] theorem exCov_nil (ip : Nat) : exCov [] ip ↔ False := by
  simp [exCov]

@[simp] theorem exCov_cons (e : Ipv4Range) (l : List Ipv4Range) (ip : Nat) :
    exCov (e :: l) ip ↔ e.covers ip ∨ exCov l ip := by
  simp [exCov]

/-- Separation: sorted and IP-disjoint consecutive ranges. -/
def sep (a b : ScanRange) : Prop := a.ip_end < b.ip_start

theorem ipCov_tail_lo {A : ScanRange} {S : List ScanRange}
    (hsep : (A :: S).Pairwise sep) {ip : Nat} (h : ipCov S ip) : A.ip_end < ip := by
  obtain ⟨s, hs, h1, h2⟩ := h
  have := (List.pairwise_cons.mp hsep).1 s hs
  unfold sep at this
  omega

theorem pairCov_tail_lo {A : ScanRange} {S : List ScanRange}
    (hsep : (A :: S).Pairwise sep) {ip port : Nat} (h : pairCov S ip port) :
    A.ip_end < ip := by
  obtain ⟨s, hs, h1, h2, _⟩ := h
  have := (List.pairwise_cons.mp hsep).1 s hs
  unfold sep at this
  omega

theorem exCov_tail_lo {E : Ipv4Range} {X : List Ipv4Range}
    (hsorted : (E :: X).Pairwise (fun a b => a.start ≤ b.start)) {ip : Nat}
    (h : exCov X ip) : E.start ≤ ip := by
  obtain ⟨e, he, h1, h2⟩ := h
  have := (List.pairwise_cons.mp hsorted).1 e he
  omega

/-- Coverage of an IP by a range, with an abstract condition on the port
interval; instantiating `Q` recovers both pair- and IP-level coverage. -/
def covQ (Q : Nat → Nat → Prop) (r : ScanRange) (ip : Nat) : Prop :=
  r.ip_start ≤ ip ∧ ip ≤ r.ip_end ∧ Q r.port_start r.port_end

def listCov (Q : Nat → Nat → Prop) (l : List ScanRange) (ip : Nat) : Prop :=
  ∃ r ∈ l, covQ Q r ip

@[simp] theorem listCov_nil (Q : Nat → Nat → Prop) (ip : Nat) :
    listCov Q [] ip ↔ False := by
  simp [listCov]

@[simp] theorem listCov_cons (Q : Nat → Nat → Prop) (r : ScanRange)
    (l : List ScanRange) (ip : Nat) :
    listCov Q (r :: l) ip ↔ covQ Q r ip ∨ listCov Q l ip := by
  simp [listCov]

theorem listCov_pair (l : List ScanRange) (ip port : Nat) :
    listCov (fun a b => a ≤ port ∧ port ≤ b) l ip ↔ pairCov l ip port := by
  unfold listCov covQ pairCov ScanRange.coversPair
  simp [and_assoc]

theorem listCov_ip (l : List ScanRange) (ip : Nat) :
    listCov (fun _ _ => True) l ip ↔ ipCov l ip := by
  unfold listCov covQ ipCov ScanRange.coversIp
  simp

theorem listCov_tail_lo {Q : Nat → Nat → Prop} {A : ScanRange}
    {S : List ScanRange} (hsep : (A :: S).Pairwise sep) {ip : Nat}
    (h : listCov Q S ip) : A.ip_end < ip := by
  obtain ⟨s, hs, h1, h2, _⟩ := h
  have := (List.pairwise_cons.mp hsep).1 s hs
  unfold sep at this
  omega

theorem listCov_ge_start {Q : Nat → Nat → Prop} {A : ScanRange}
    {S : List ScanRange} (hsep : (A :: S).Pairwise sep)
    (hwf : ∀ s ∈ A :: S, s.ip_start ≤ s.ip_end) {ip : Nat}
    (h : listCov Q (A :: S) ip) : A.ip_start ≤ ip := by
  rcases (listCov_cons ..).mp h with h | h
  · exact h.1
  · have h1 := listCov_tail_lo hsep h
    have h2 := hwf A (List.mem_cons_self _ _)
    omega

theorem ipCov_ge_start {A : ScanRange} {S : List ScanRange}
    (hsep : (A :: S).Pairwise sep)
    (hwf : ∀ s ∈ A :: S, s.ip_start ≤ s.ip_end) {ip : Nat}
    (h : ipCov (A :: S) ip) : A.ip_start ≤ ip := by
  rcases (ipCov_cons ..).mp h with h | h
  · exact h.1
  · have h1 := ipCov_tail_lo hsep h
    have h2 := hwf A (List.mem_cons_self _ _)
    omega

theorem exCov_ge_start {E : Ipv4Range} {X : List Ipv4Range}
    (hsorted : (E :: X).Pairwise (fun a b => a.start ≤ b.start)) {ip : Nat}
    (h : exCov (E :: X) ip) : E.start ≤ ip := by
  rcases (exCov_cons ..).mp h with h | h
  · exact h.1
  · exact exCov_tail_lo hsorted h

theorem applyExcludeLoop_before_cons (sr next : ScanRange)
    (rest : List ScanRange) (ex : Ipv4Range) (exs : List Ipv4Range)
    (h : sr.ip_end < ex.start) :
    ScanRanges.applyExcludeLoop sr (next :: rest) ex exs =
      (sr :: (ScanRanges.applyExcludeLoop next rest ex exs).1,
       (ScanRanges.applyExcludeLoop next rest ex exs).2) := by
  rw [ScanRanges.applyExcludeLoop.eq_def, if_pos h]

theorem applyExcludeLoop_before_nil (sr : ScanRange) (ex : Ipv4Range)
    (exs : List Ipv4Range) (h : sr.ip_end < ex.start) :
    ScanRanges.applyExcludeLoop sr [] ex exs = ([sr], []) := by
  rw [ScanRanges.applyExcludeLoop.eq_def, if_pos h]

theorem applyExcludeLoop_after_cons (sr : ScanRange) (scans : List ScanRange)
    (ex e : Ipv4Range) (rest : List Ipv4Range)
    (h1 : ¬ sr.ip_end < ex.start) (h2 : sr.ip_start > ex.stop) :
    ScanRanges.applyExcludeLoop sr scans ex (e :: rest) =
      ScanRanges.applyExcludeLoop sr scans e rest := by
  rw [ScanRanges.applyExcludeLoop.eq_def, if_neg h1, if_pos h2]

theorem applyExcludeLoop_after_nil (sr : ScanRange) (scans : List ScanRange)
    (ex : Ipv4Range) (h1 : ¬ sr.ip_end < ex.start) (h2 : sr.ip_start > ex.stop) :
    ScanRanges.applyExcludeLoop sr scans ex [] = (sr :: scans, []) := by
  rw [ScanRanges.applyExcludeLoop.eq_def, if_neg h1, if_pos h2]

theorem applyExcludeLoop_contains (sr : ScanRange) (scans : List ScanRange)
    (ex : Ipv4Range) (exs : List Ipv4Range)
    (h1 : ¬ sr.ip_end < ex.start) (h2 : ¬ sr.ip_start > ex.stop)
    (h3 : sr.ip_start < ex.start ∧ sr.ip_end > ex.stop) :
    ScanRanges.applyExcludeLoop sr scans ex exs =
      (ScanRange.mk sr.ip_start (ex.start - 1) sr.port_start sr.port_end ::
         (ScanRanges.applyExcludeLoop { sr with ip_start := ex.stop + 1 } scans ex exs).1,
       ex :: (ScanRanges.applyExcludeLoop { sr with ip_start := ex.stop + 1 } scans ex exs).2) := by
  rw [ScanRanges.applyExcludeLoop.eq_def, if_neg h1, if_neg h2, if_pos h3]

theorem applyExcludeLoop_cutRight_cons (sr next : ScanRange)
    (rest : List ScanRange) (ex : Ipv4Range) (exs : List Ipv4Range)
    (h1 : ¬ sr.ip_end < ex.start) (h2 : ¬ sr.ip_start > ex.stop)
    (h3 : ¬ (sr.ip_start < ex.start ∧ sr.ip_end > ex.stop))
    (h4 : sr.ip_start < ex.start) :
    ScanRanges.applyExcludeLoop sr (next :: rest) ex exs =
      (ScanRange.mk sr.ip_start (ex.start - 1) sr.port_start sr.port_end ::
         (ScanRanges.applyExcludeLoop next rest ex exs).1,
       Ipv4Range.mk ex.start sr.ip_end ::
         (ScanRanges.applyExcludeLoop next rest ex exs).2) := by
  rw [ScanRanges.applyExcludeLoop.eq_def, if_neg h1, if_neg h2, if_neg h3, if_pos h4]

theorem applyExcludeLoop_cutRight_nil (sr : ScanRange) (ex : Ipv4Range)
    (exs : List Ipv4Range)
    (h1 : ¬ sr.ip_end < ex.start) (h2 : ¬ sr.ip_start > ex.stop)
    (h3 : ¬ (sr.ip_start < ex.start ∧ sr.ip_end > ex.stop))
    (h4 : sr.ip_start < ex.start) :
    ScanRanges.applyExcludeLoop sr [] ex exs =
      ([ScanRange.mk sr.ip_start (ex.start - 1) sr.port_start sr.port_end],
       [Ipv4Range.mk ex.start sr.ip_end]) := by
  rw [ScanRanges.applyExcludeLoop.eq_def, if_neg h1, if_neg h2, if_neg h3, if_pos h4]

theorem applyExcludeLoop_cutLeft (sr : ScanRange) (scans : List ScanRange)
    (ex : Ipv4Range) (exs : List Ipv4Range)
    (h1 : ¬ sr.ip_end < ex.start) (h2 : ¬ sr.ip_start > ex.stop)
    (h3 : ¬ (sr.ip_start < ex.start ∧ sr.ip_end > ex.stop))
    (h4 : ¬ sr.ip_start < ex.start) (h5 : sr.ip_end > ex.stop) :
    ScanRanges.applyExcludeLoop sr scans ex exs =
      ((ScanRanges.applyExcludeLoop { sr with ip_start := ex.stop + 1 } scans ex exs).1,
       Ipv4Range.mk sr.ip_start ex.stop ::
         (ScanRanges.applyExcludeLoop { sr with ip_start := ex.stop + 1 } scans ex exs).2) := by
  rw [ScanRanges.applyExcludeLoop.eq_def, if_neg h1, if_neg h2, if_neg h3, if_neg h4, if_pos h5]

theorem applyExcludeLoop_contained_cons (sr next : ScanRange)
    (rest : List ScanRange) (ex : Ipv4Range) (exs : List Ipv4Range)
    (h1 : ¬ sr.ip_end < ex.start) (h2 : ¬ sr.ip_start > ex.stop)
    (h3 : ¬ (sr.ip_start < ex.start ∧ sr.ip_end > ex.stop))
    (h4 : ¬ sr.ip_start < ex.start) (h5 : ¬ sr.ip_end > ex.stop) :
    ScanRanges.applyExcludeLoop sr (next :: rest) ex exs =
      ((ScanRanges.applyExcludeLoop next rest ex exs).1,
       Ipv4Range.mk sr.ip_start sr.ip_end ::
         (ScanRanges.applyExcludeLoop next rest ex exs).2) := by
  rw [ScanRanges.applyExcludeLoop.eq_def, if_neg h1, if_neg h2, if_neg h3, if_neg h4, if_neg h5]

theorem applyExcludeLoop_contained_nil (sr : ScanRange) (ex : Ipv4Range)
    (exs : List Ipv4Range)
    (h1 : ¬ sr.ip_end < ex.start) (h2 : ¬ sr.ip_start > ex.stop)
    (h3 : ¬ (sr.ip_start < ex.start ∧ sr.ip_end > ex.stop))
    (h4 : ¬ sr.ip_start < ex.start) (h5 : ¬ sr.ip_end > ex.stop) :
    ScanRanges.applyExcludeLoop sr [] ex exs =
      ([], [Ipv4Range.mk sr.ip_start sr.ip_end]) := by
  rw [ScanRanges.applyExcludeLoop.eq_def, if_neg h1, if_neg h2, if_neg h3, if_neg h4, if_neg h5]

/-- Loop invariant of `apply_exclude`: under sorted IP-disjoint scan ranges
and start-sorted exclude ranges, the surviving list covers exactly the
covered-and-not-excluded IPs (uniformly in the port condition `Q`), and the
removed list covers exactly the covered-and-excluded IPs. -/
theorem applyExcludeLoop_spec (sr : ScanRange) (scans : List ScanRange)
    (ex : Ipv4Range) (exs : List Ipv4Range) :
    (sr :: scans).Pairwise sep →
    (∀ s ∈ sr :: scans, s.ip_start ≤ s.ip_end) →
    (ex :: exs).Pairwise (fun a b => a.start ≤ b.start) →
    (∀ (Q : Nat → Nat → Prop) (ip : Nat),
        listCov Q (ScanRanges.applyExcludeLoop sr scans ex exs).1 ip ↔
          (listCov Q (sr :: scans) ip ∧ ¬ exCov (ex :: exs) ip)) ∧
    (∀ ip : Nat,
        exCov (ScanRanges.applyExcludeLoop sr scans ex exs).2 ip ↔
          (ipCov (sr :: scans) ip ∧ exCov (ex :: exs) ip)) := by
  induction sr, scans, ex, exs using ScanRanges.applyExcludeLoop.induct with
  | case1 sr ex exs h1 next rest ih =>
    intro hsep hwf hsorted
    obtain ⟨ihP, ihM⟩ := ih hsep.of_cons
      (fun s hs => hwf s (List.mem_cons_of_mem _ hs)) hsorted
    have hlt : ∀ ip : Nat, ip ≤ sr.ip_end → ¬ exCov (ex :: exs) ip := by
      intro ip hip hc
      have := exCov_ge_start hsorted hc
      omega
    rw [applyExcludeLoop_before_cons sr next rest ex exs h1]
    refine ⟨fun Q ip => ?_, fun ip => ?_⟩
    · simp only [listCov_cons, ihP]
      constructor
      · rintro (h | ⟨h2, h3⟩)
        · exact ⟨Or.inl h, hlt ip h.2.1⟩
        · exact ⟨Or.inr h2, h3⟩
      · rintro ⟨h | h2, h3⟩
        · exact Or.inl h
        · exact Or.inr ⟨h2, h3⟩
    · simp only [ihM, ipCov_cons]
      constructor
      · rintro ⟨h2, h3⟩
        exact ⟨Or.inr h2, h3⟩
      · rintro ⟨h | h2, h3⟩
        · exact absurd h3 (hlt ip h.2)
        · exact ⟨h2, h3⟩
  | case2 sr ex exs h1 =>
    intro hsep hwf hsorted
    have hlt : ∀ ip : Nat, ip ≤ sr.ip_end → ¬ exCov (ex :: exs) ip := by
      intro ip hip hc
      have := exCov_ge_start hsorted hc
      omega
    rw [applyExcludeLoop_before_nil sr ex exs h1]
    refine ⟨fun Q ip => ?_, fun ip => ?_⟩
    · simp only [listCov_cons, listCov_nil, or_false]
      constructor
      · intro h
        exact ⟨h, hlt ip h.2.1⟩
      · rintro ⟨h, _⟩
        exact h
    · simp only [exCov_nil, ipCov_cons, ipCov_nil, or_false, false_iff]
      rintro ⟨h, h3⟩
      exact hlt ip h.2 h3
  | case3 sr scans ex h1 h2 e rest ih =>
    intro hsep hwf hsorted
    obtain ⟨ihP, ihM⟩ := ih hsep hwf hsorted.of_cons
    have hnc : ∀ ip : Nat, sr.ip_start ≤ ip → ¬ ex.covers ip := by
      intro ip hip hc
      obtain ⟨hc1, hc2⟩ := hc
      omega
    rw [applyExcludeLoop_after_cons sr scans ex e rest h1 h2]
    refine ⟨fun Q ip => ?_, fun ip => ?_⟩
    · simp only [ihP, exCov_cons]
      constructor
      · rintro ⟨hc, hn⟩
        refine ⟨hc, ?_⟩
        rintro (h | h)
        · exact hnc ip (listCov_ge_start hsep hwf hc) h
        · exact hn h
      · rintro ⟨hc, hn⟩
        exact ⟨hc, fun h => hn (Or.inr h)⟩
    · simp only [ihM, exCov_cons]
      constructor
      · rintro ⟨hc, h⟩
        exact ⟨hc, Or.inr h⟩
      · rintro ⟨hc, h | h⟩
        · exact absurd h (hnc ip (ipCov_ge_start hsep hwf hc))
        · exact ⟨hc, h⟩
  | case4 sr scans ex h1 h2 =>
    intro hsep hwf hsorted
    have hnc : ∀ ip : Nat, sr.ip_start ≤ ip → ¬ ex.covers ip := by
      intro ip hip hc
      obtain ⟨hc1, hc2⟩ := hc
      omega
    rw [applyExcludeLoop_after_nil sr scans ex h1 h2]
    refine ⟨fun Q ip => ?_, fun ip => ?_⟩
    · simp only [exCov_cons, exCov_nil, or_false]
      constructor
      · intro h
        exact ⟨h, hnc ip (listCov_ge_start hsep hwf h)⟩
      · rintro ⟨h, _⟩
        exact h
    · simp only [exCov_nil, exCov_cons, exCov_nil, or_false, false_iff]
      rintro ⟨hc, h⟩
      exact hnc ip (ipCov_ge_start hsep hwf hc) h
  | case5 sr scans ex exs h1 h2 h3 ih =>
    intro hsep hwf hsorted
    obtain ⟨h3a, h3b⟩ := h3
    have hsep' : (ScanRange.mk (ex.stop + 1) sr.ip_end sr.port_start
        sr.port_end :: scans).Pairwise sep := by
      rw [List.pairwise_cons] at hsep ⊢
      exact ⟨fun s hs => hsep.1 s hs, hsep.2⟩
    have hwf' : ∀ s ∈ ScanRange.mk (ex.stop + 1) sr.ip_end sr.port_start
        sr.port_end :: scans, s.ip_start ≤ s.ip_end := by
      intro s hs
      rcases List.mem_cons.mp hs with h | h
      · subst h
        show ex.stop + 1 ≤ sr.ip_end
        omega
      · exact hwf s (List.mem_cons_of_mem _ h)
    obtain ⟨ihP, ihM⟩ := ih hsep' hwf' hsorted
    rw [applyExcludeLoop_contains sr scans ex exs h1 h2 ⟨h3a, h3b⟩]
    refine ⟨fun Q ip => ?_, fun ip => ?_⟩
    · simp only [listCov_cons, ihP, exCov_cons, covQ, Ipv4Range.covers]
      constructor
      · rintro (⟨ha, hb, hq⟩ | ⟨hc, hn⟩)
        · refine ⟨Or.inl ⟨ha, by omega, hq⟩, ?_⟩
          rintro (⟨he1, he2⟩ | hx)
          · omega
          · have := exCov_tail_lo hsorted hx
            omega
        · rcases hc with ⟨ha, hb, hq⟩ | hs
          · exact ⟨Or.inl ⟨by omega, hb, hq⟩, hn⟩
          · exact ⟨Or.inr hs, hn⟩
      · rintro ⟨⟨ha, hb, hq⟩ | hs, hn⟩
        · by_cases hcase : ip < ex.start
          · exact Or.inl ⟨ha, by omega, hq⟩
          · have hnc : ¬ (ex.start ≤ ip ∧ ip ≤ ex.stop) := fun hcv => hn (Or.inl hcv)
            exact Or.inr ⟨Or.inl ⟨by omega, hb, hq⟩, hn⟩
        · exact Or.inr ⟨Or.inr hs, hn⟩
    · simp only [exCov_cons, ihM, ipCov_cons, ScanRange.coversIp, Ipv4Range.covers]
      constructor
      · rintro (⟨he1, he2⟩ | ⟨hc, hx⟩)
        · exact ⟨Or.inl ⟨by omega, by omega⟩, Or.inl ⟨he1, he2⟩⟩
        · rcases hc with ⟨ha, hb⟩ | hs
          · exact ⟨Or.inl ⟨by omega, hb⟩, hx⟩
          · exact ⟨Or.inr hs, hx⟩
      · rintro ⟨⟨ha, hb⟩ | hs, hx⟩
        · by_cases hcase : ip ≤ ex.stop
          · rcases hx with ⟨he1, he2⟩ | hx
            · exact Or.inl ⟨he1, he2⟩
            · have := exCov_tail_lo hsorted hx
              exact Or.inl ⟨this, hcase⟩
          · exact Or.inr ⟨Or.inl ⟨by omega, hb⟩, hx⟩
        · exact Or.inr ⟨Or.inr hs, hx⟩
  | case6 sr ex exs h1 h2 h3 h4 next rest ih =>
    intro hsep hwf hsorted
    obtain ⟨ihP, ihM⟩ := ih hsep.of_cons
      (fun s hs => hwf s (List.mem_cons_of_mem _ hs)) hsorted
    have hend : sr.ip_end ≤ ex.stop := by
      by_contra hcon
      exact h3 ⟨h4, by omega⟩
    rw [applyExcludeLoop_cutRight_cons sr next rest ex exs h1 h2 h3 h4]
    refine ⟨fun Q ip => ?_, fun ip => ?_⟩
    · simp only [listCov_cons, ihP, exCov_cons, covQ, Ipv4Range.covers]
      constructor
      · rintro (⟨ha, hb, hq⟩ | ⟨hT, hn⟩)
        · refine ⟨Or.inl ⟨ha, by omega, hq⟩, ?_⟩
          rintro (⟨he1, he2⟩ | hx)
          · omega
          · have := exCov_tail_lo hsorted hx
            omega
        · exact ⟨Or.inr hT, hn⟩
      · rintro ⟨⟨ha, hb, hq⟩ | hT, hn⟩
        · have hnc : ¬ (ex.start ≤ ip ∧ ip ≤ ex.stop) := fun hcv => hn (Or.inl hcv)
          exact Or.inl ⟨ha, by omega, hq⟩
        · exact Or.inr ⟨hT, hn⟩
    · simp only [exCov_cons, ihM, ipCov_cons, ScanRange.coversIp, Ipv4Range.covers]
      constructor
      · rintro (⟨ha, hb⟩ | ⟨hc, hx⟩)
        · exact ⟨Or.inl ⟨by omega, hb⟩, Or.inl ⟨ha, by omega⟩⟩
        · exact ⟨Or.inr hc, hx⟩
      · rintro ⟨⟨ha, hb⟩ | hc, hx⟩
        · rcases hx with ⟨he1, _⟩ | hx
          · exact Or.inl ⟨he1, hb⟩
          · have := exCov_tail_lo hsorted hx
            exact Or.inl ⟨this, hb⟩
        · exact Or.inr ⟨hc, hx⟩
  | case7 sr ex exs h1 h2 h3 h4 =>
    intro hsep hwf hsorted
    have hend : sr.ip_end ≤ ex.stop := by
      by_contra hcon
      exact h3 ⟨h4, by omega⟩
    rw [applyExcludeLoop_cutRight_nil sr ex exs h1 h2 h3 h4]
    refine ⟨fun Q ip => ?_, fun ip => ?_⟩
    · simp only [listCov_cons, listCov_nil, or_false, exCov_cons, covQ,
        Ipv4Range.covers]
      constructor
      · rintro ⟨ha, hb, hq⟩
        refine ⟨⟨ha, by omega, hq⟩, ?_⟩
        rintro (⟨he1, he2⟩ | hx)
        · omega
        · have := exCov_tail_lo hsorted hx
          omega
      · rintro ⟨⟨ha, hb, hq⟩, hn⟩
        have hnc : ¬ (ex.start ≤ ip ∧ ip ≤ ex.stop) := fun hcv => hn (Or.inl hcv)
        exact ⟨ha, by omega, hq⟩
    · simp only [exCov_cons, exCov_nil, or_false, ipCov_cons, ipCov_nil,
        ScanRange.coversIp, Ipv4Range.covers]
      constructor
      · rintro ⟨ha, hb⟩
        exact ⟨⟨by omega, hb⟩, Or.inl ⟨ha, by omega⟩⟩
      · rintro ⟨⟨ha, hb⟩, hx⟩
        rcases hx with ⟨he1, _⟩ | hx
        · exact ⟨he1, hb⟩
        · have := exCov_tail_lo hsorted hx
          exact ⟨this, hb⟩
  | case8 sr scans ex exs h1 h2 h3 h4 h5 ih =>
    intro hsep hwf hsorted
    have hsep' : (ScanRange.mk (ex.stop + 1) sr.ip_end sr.port_start
        sr.port_end :: scans).Pairwise sep := by
      rw [List.pairwise_cons] at hsep ⊢
      exact ⟨fun s hs => hsep.1 s hs, hsep.2⟩
    have hwf' : ∀ s ∈ ScanRange.mk (ex.stop + 1) sr.ip_end sr.port_start
        sr.port_end :: scans, s.ip_start ≤ s.ip_end := by
      intro s hs
      rcases List.mem_cons.mp hs with h | h
      · subst h
        show ex.stop + 1 ≤ sr.ip_end
        omega
      · exact hwf s (List.mem_cons_of_mem _ h)
    obtain ⟨ihP, ihM⟩ := ih hsep' hwf' hsorted
    rw [applyExcludeLoop_cutLeft sr scans ex exs h1 h2 h3 h4 h5]
    refine ⟨fun Q ip => ?_, fun ip => ?_⟩
    · simp only [listCov_cons, ihP, exCov_cons, covQ, Ipv4Range.covers]
      constructor
      · rintro ⟨⟨ha, hb, hq⟩ | hs, hn⟩
        · exact ⟨Or.inl ⟨by omega, hb, hq⟩, hn⟩
        · exact ⟨Or.inr hs, hn⟩
      · rintro ⟨⟨ha, hb, hq⟩ | hs, hn⟩
        · have hnc : ¬ (ex.start ≤ ip ∧ ip ≤ ex.stop) := fun hcv => hn (Or.inl hcv)
          exact ⟨Or.inl ⟨by omega, hb, hq⟩, hn⟩
        · exact ⟨Or.inr hs, hn⟩
    · simp only [exCov_cons, ihM, ipCov_cons, ScanRange.coversIp, Ipv4Range.covers]
      constructor
      · rintro (⟨ha, hb⟩ | ⟨⟨ha, hb⟩ | hs, hx⟩)
        · exact ⟨Or.inl ⟨ha, by omega⟩, Or.inl ⟨by omega, hb⟩⟩
        · exact ⟨Or.inl ⟨by omega, hb⟩, hx⟩
        · exact ⟨Or.inr hs, hx⟩
      · rintro ⟨⟨ha, hb⟩ | hs, hx⟩
        · by_cases hcase : ip ≤ ex.stop
          · exact Or.inl ⟨ha, hcase⟩
          · exact Or.inr ⟨Or.inl ⟨by omega, hb⟩, hx⟩
        · exact Or.inr ⟨Or.inr hs, hx⟩
  | case9 sr ex exs h1 h2 h3 h4 h5 next rest ih =>
    intro hsep hwf hsorted
    obtain ⟨ihP, ihM⟩ := ih hsep.of_cons
      (fun s hs => hwf s (List.mem_cons_of_mem _ hs)) hsorted
    rw [applyExcludeLoop_contained_cons sr next rest ex exs h1 h2 h3 h4 h5]
    refine ⟨fun Q ip => ?_, fun ip => ?_⟩
    · simp only [listCov_cons, ihP, exCov_cons, covQ, Ipv4Range.covers]
      constructor
      · rintro ⟨hT, hn⟩
        exact ⟨Or.inr hT, hn⟩
      · rintro ⟨⟨ha, hb, hq⟩ | hT, hn⟩
        · exact absurd (Or.inl ⟨by omega, by omega⟩) hn
        · exact ⟨hT, hn⟩
    · simp only [exCov_cons, ihM, ipCov_cons, ScanRange.coversIp, Ipv4Range.covers]
      constructor
      · rintro (⟨ha, hb⟩ | ⟨hc, hx⟩)
        · exact ⟨Or.inl ⟨ha, hb⟩, Or.inl ⟨by omega, by omega⟩⟩
        · exact ⟨Or.inr hc, hx⟩
      · rintro ⟨⟨ha, hb⟩ | hc, hx⟩
        · exact Or.inl ⟨ha, hb⟩
        · exact Or.inr ⟨hc, hx⟩
  | case10 sr ex exs h1 h2 h3 h4 h5 =>
    intro hsep hwf hsorted
    rw [applyExcludeLoop_contained_nil sr ex exs h1 h2 h3 h4 h5]
    refine ⟨fun Q ip => ?_, fun ip => ?_⟩
    · simp only [listCov_nil, listCov_cons, or_false, false_iff, exCov_cons,
        covQ, Ipv4Range.covers]
      rintro ⟨⟨ha, hb, hq⟩, hn⟩
      exact hn (Or.inl ⟨by omega, by omega⟩)
    · simp only [exCov_cons, exCov_nil, or_false, ipCov_cons, ipCov_nil,
        ScanRange.coversIp, Ipv4Range.covers]
      constructor
      · rintro ⟨ha, hb⟩
        exact ⟨⟨ha, hb⟩, Or.inl ⟨by omega, by omega⟩⟩
      · rintro ⟨⟨ha, hb⟩, _⟩
        exact ⟨ha, hb⟩

instance (l : List ScanRange) (ip : Nat) : Decidable (ipCov l ip) := by
  unfold ipCov; infer_instance

instance (l : List ScanRange) (ip port : Nat) : Decidable (pairCov l ip port) := by
  unfold pairCov; infer_instance

instance (l : List Ipv4Range) (ip : Nat) : Decidable (exCov l ip) := by
  unfold exCov; infer_instance

/-- C1: on sorted, pairwise IP-disjoint scan ranges and start-sorted exclude
ranges, `apply_exclude` removes exactly the excluded IPs: the survivors avoid
every excluded IP, survivors plus the removed intervals cover exactly the
original IPs, and a surviving IP keeps exactly the ports it had. -/
theorem apply_exclude_spec (ranges : List ScanRange) (excludes : List Ipv4Range)
    (hsep : ranges.Pairwise sep)
    (hwf : ∀ s ∈ ranges, s.ip_start ≤ s.ip_end)
    (hsorted : excludes.Pairwise (fun a b => a.start ≤ b.start)) :
    (∀ ip : Nat, ipCov (ScanRanges.apply_exclude ranges excludes).1 ip →
        ¬ exCov excludes ip) ∧
    (∀ ip : Nat, ipCov (ScanRanges.apply_exclude ranges excludes).1 ip ∨
        exCov (ScanRanges.apply_exclude ranges excludes).2 ip ↔ ipCov ranges ip) ∧
    (∀ ip port : Nat, pairCov (ScanRanges.apply_exclude ranges excludes).1 ip port ↔
        (pairCov ranges ip port ∧ ¬ exCov excludes ip)) := by
  rcases excludes with _ | ⟨ex, exs⟩
  · refine ⟨fun ip h => by simp, fun ip => ?_, fun ip port => ?_⟩
    · simp [ScanRanges.apply_exclude]
    · simp [ScanRanges.apply_exclude]
  · rcases ranges with _ | ⟨sr, srs⟩
    · refine ⟨fun ip h => ?_, fun ip => ?_, fun ip port => ?_⟩
      · simp [ScanRanges.apply_exclude] at h
      · simp [ScanRanges.apply_exclude]
      · simp [ScanRanges.apply_exclude]
    · have spec := applyExcludeLoop_spec sr srs ex exs hsep hwf hsorted
      have heq : ScanRanges.apply_exclude (sr :: srs) (ex :: exs) =
          ScanRanges.applyExcludeLoop sr srs ex exs := rfl
      rw [heq]
      have hI : ∀ ip : Nat,
          ipCov (ScanRanges.applyExcludeLoop sr srs ex exs).1 ip ↔
            (ipCov (sr :: srs) ip ∧ ¬ exCov (ex :: exs) ip) := by
        intro ip
        rw [← listCov_ip, spec.1 (fun _ _ => True) ip, listCov_ip]
      refine ⟨fun ip h => ((hI ip).mp h).2, fun ip => ?_, fun ip port => ?_⟩
      · constructor
        · rintro (h | h)
          · exact ((hI ip).mp h).1
          · exact ((spec.2 ip).mp h).1
        · intro hc
          by_cases hE : exCov (ex :: exs) ip
          · exact Or.inr ((spec.2 ip).mpr ⟨hc, hE⟩)
          · exact Or.inl ((hI ip).mpr ⟨hc, hE⟩)
      · rw [← listCov_pair, spec.1 (fun a b => a ≤ port ∧ port ≤ b) ip,
          listCov_pair]

/-- C1 counterexample: on overlapping (non-disjoint) scan ranges the
exclusion is not applied to the range that overlaps an already-processed
one, so a survivor still covers the excluded IP 50. -/
theorem apply_exclude_counterexample :
    ipCov (ScanRanges.apply_exclude
        [ScanRange.mk 0 100 5 5, ScanRange.mk 0 100 5 5]
        [Ipv4Range.mk 50 60]).1 50 ∧
    exCov [Ipv4Range.mk 50 60] 50 := by
  have e3 : ScanRanges.applyExcludeLoop
      { ScanRange.mk 0 100 5 5 with ip_start := (Ipv4Range.mk 50 60).stop + 1 }
      [ScanRange.mk 0 100 5 5] (Ipv4Range.mk 50 60) [] =
      ([{ ScanRange.mk 0 100 5 5 with ip_start := (Ipv4Range.mk 50 60).stop + 1 },
        ScanRange.mk 0 100 5 5], []) :=
    applyExcludeLoop_after_nil _ _ _ (by decide) (by decide)
  have e2 : ScanRanges.apply_exclude
      [ScanRange.mk 0 100 5 5, ScanRange.mk 0 100 5 5] [Ipv4Range.mk 50 60] =
      (ScanRange.mk 0 49 5 5 ::
        [{ ScanRange.mk 0 100 5 5 with ip_start := (Ipv4Range.mk 50 60).stop + 1 },
         ScanRange.mk 0 100 5 5],
       [Ipv4Range.mk 50 60]) := by
    show ScanRanges.applyExcludeLoop (ScanRange.mk 0 100 5 5)
        [ScanRange.mk 0 100 5 5] (Ipv4Range.mk 50 60) [] = _
    rw [applyExcludeLoop_contains _ _ _ _ (by decide) (by decide) (by decide),
      e3]
    rfl
  rw [e2]
  decide

/-- C1 witness instance: a single well-formed range with one exclude. -/
theorem apply_exclude_spec_witness :
    pairCov (ScanRanges.apply_exclude [ScanRange.mk 0 100 5 5]
        [Ipv4Range.mk 50 60]).1 70 5 ↔
      (pairCov [ScanRange.mk 0 100 5 5] 70 5 ∧
        ¬ exCov [Ipv4Range.mk 50 60] 70) :=
  (apply_exclude_spec [ScanRange.mk 0 100 5 5] [Ipv4Range.mk 50 60]
    (by simp) (by decide) (by simp)).2.2 70 5

end Matscan
